import Mathlib

/-!
# toxcore `crypto_core.c`: a shallow embedding

Byte buffers are lists of naturals (each byte a number below 256).  C's `uint32_t`
arithmetic is written with an explicit reduction modulo `2 ^ 32`.  A function that
writes through a pointer takes the old contents of the buffer and returns the new
contents next to its `int` return value.  An access outside a buffer is undefined
behaviour in C; here it is the explicit outcome `Except.error`.
-/

namespace Toxcore

/-- A byte buffer. -/
abbrev Bytes := List Nat

/-- Every element of the buffer is a byte. -/
def IsBytes (b : Bytes) : Prop := ∀ x ∈ b, x < 256

instance (b : Bytes) : Decidable (IsBytes b) := by
  unfold IsBytes; infer_instance

/-- The two ways a C memory access can leave its buffer. -/
inductive Fault where
  | read_out_of_bounds
  | write_out_of_bounds
  deriving DecidableEq, Repr

/-! ## Constants of the NaCl `crypto_box` API used by `crypto_core.c` -/

/-- The constant `crypto_box_PUBLICKEYBYTES`; the source refuses to build unless it is 32. -/
def crypto_box_PUBLICKEYBYTES : Nat := 32
/-- The constant `crypto_box_SECRETKEYBYTES`. -/
def crypto_box_SECRETKEYBYTES : Nat := 32
/-- The constant `crypto_box_BEFORENMBYTES`, the size of a precomputed shared key. -/
def crypto_box_BEFORENMBYTES : Nat := 32
/-- The constant `crypto_box_NONCEBYTES`. -/
def crypto_box_NONCEBYTES : Nat := 24
/-- The constant `crypto_box_ZEROBYTES`: "Pad the message with 32 0 bytes". -/
def crypto_box_ZEROBYTES : Nat := 32
/-- The constant `crypto_box_BOXZEROBYTES`: "Pad the message with 16 0 bytes". -/
def crypto_box_BOXZEROBYTES : Nat := 16
/-- The constant `crypto_box_MACBYTES`, which is `ZEROBYTES - BOXZEROBYTES`. -/
def crypto_box_MACBYTES : Nat := 16

/-- What `crypto_core.c` takes from outside the two source files: two constants of
headers that are not part of the sources, the three NaCl primitives, and the byte
found in stack memory that has not been written yet. A primitive that returns
non-zero is `none`; one that returns 0 is `some` of the bytes it wrote. The last
three fields are the shape of the C interface: `crypto_box_beforenm` writes 32 bytes,
the other two write as many bytes as they are given (`mlen`, `clen`). -/
structure Env where
  MAX_CRYPTO_REQUEST_SIZE : Nat
  NET_PACKET_CRYPTO : Nat
  crypto_box_beforenm : Bytes → Bytes → Bytes
  crypto_box_afternm : Bytes → Bytes → Bytes → Option Bytes
  crypto_box_open_afternm : Bytes → Bytes → Bytes → Option Bytes
  stack_byte : Nat
  beforenm_length : ∀ pk sk, (crypto_box_beforenm pk sk).length = 32
  afternm_length : ∀ m n k c, crypto_box_afternm m n k = some c → c.length = m.length
  open_afternm_length : ∀ c n k m, crypto_box_open_afternm c n k = some m → m.length = c.length

/-! ## Machine arithmetic -/

/-- Reduction of a natural number to a `uint32_t`. -/
def u32 (x : Nat) : Nat := x % 2 ^ 32

/-- Conversion of a `uint32_t` to `int` (two's complement, 32 bits). -/
def to_int (x : Nat) : Int :=
  if x % 2 ^ 32 < 2 ^ 31 then ((x % 2 ^ 32 : Nat) : Int) else ((x % 2 ^ 32 : Nat) : Int) - 2 ^ 32

/-! ## Memory primitives -/

/-- A fresh array of `n` bytes on the stack (a C array declaration). -/
def stack_array (E : Env) (n : Nat) : Bytes := List.replicate n E.stack_byte

/-- C `memcpy(dst + doff, src + soff, n)`. -/
def memcpy (dst : Bytes) (doff : Nat) (src : Bytes) (soff n : Nat) : Except Fault Bytes :=
  if src.length < soff + n then .error .read_out_of_bounds
  else if dst.length < doff + n then .error .write_out_of_bounds
  else .ok (dst.take doff ++ (src.drop soff).take n ++ dst.drop (doff + n))

/-- C `memset(dst, c, n)`. -/
def memset (dst : Bytes) (c n : Nat) : Except Fault Bytes :=
  if dst.length < n then .error .write_out_of_bounds
  else .ok (List.replicate n c ++ dst.drop n)

/-- C `memcmp(a + aoff, b + boff, n) != 0`. -/
def memcmp_ne (a : Bytes) (aoff : Nat) (b : Bytes) (boff n : Nat) : Except Fault Bool :=
  if a.length < aoff + n then .error .read_out_of_bounds
  else if b.length < boff + n then .error .read_out_of_bounds
  else .ok (decide ((a.drop aoff).take n ≠ (b.drop boff).take n))

/-- C `p[i]` read. -/
def load (p : Bytes) (i : Nat) : Except Fault Nat :=
  if h : i < p.length then .ok (p.get ⟨i, h⟩) else .error .read_out_of_bounds

/-- C `p[i] = v` for a `uint8_t` array. -/
def store (p : Bytes) (i v : Nat) : Except Fault Bytes :=
  if i < p.length then .ok (p.set i (v % 256)) else .error .write_out_of_bounds

/-- The bytes a primitive reads through a pointer: `n` bytes from `p + off`. -/
def read (p : Bytes) (off n : Nat) : Except Fault Bytes :=
  if p.length < off + n then .error .read_out_of_bounds else .ok ((p.drop off).take n)

/-- Conversion of an `int` to `size_t` (64 bits). -/
def to_size_t (x : Int) : Nat := (x % 2 ^ 64).toNat

/-! ## Nonces -/

/-- The carry loop shared by `increment_nonce` and `increment_nonce_number`:
`for (i = start; i != 0; --i) { ++nonce[i - 1]; if (nonce[i - 1] != 0) break; }`.
The argument is the loop counter `i`. -/
def increment_loop (nonce : Bytes) : Nat → Bytes
  | 0 => nonce
  | i + 1 =>
    let nonce1 := nonce.set i ((nonce.getD i 0 + 1) % 256)
    if nonce1.getD i 0 ≠ 0 then nonce1 else increment_loop nonce1 i

/-- The function `increment_nonce` of `crypto_core.c`. -/
def increment_nonce (nonce : Bytes) : Bytes :=
  increment_loop nonce crypto_box_NONCEBYTES

/-- The `uint32_t` whose object representation is the four bytes `b`
(`memcpy(&num1, b, sizeof(num1))`), on a little-endian or a big-endian host. -/
def load_u32 (little_endian : Bool) (b : Bytes) : Nat :=
  if little_endian then
    b.getD 0 0 + b.getD 1 0 * 2 ^ 8 + b.getD 2 0 * 2 ^ 16 + b.getD 3 0 * 2 ^ 24
  else
    b.getD 0 0 * 2 ^ 24 + b.getD 1 0 * 2 ^ 16 + b.getD 2 0 * 2 ^ 8 + b.getD 3 0

/-- The object representation of a `uint32_t` (`memcpy(dst, &num2, sizeof(num2))`). -/
def store_u32 (little_endian : Bool) (x : Nat) : Bytes :=
  if little_endian then
    [x % 256, x / 2 ^ 8 % 256, x / 2 ^ 16 % 256, x / 2 ^ 24 % 256]
  else
    [x / 2 ^ 24 % 256, x / 2 ^ 16 % 256, x / 2 ^ 8 % 256, x % 256]

/-- Reversal of the four bytes of a `uint32_t`. -/
def bswap32 (x : Nat) : Nat :=
  x % 256 * 2 ^ 24 + x / 2 ^ 8 % 256 * 2 ^ 16 + x / 2 ^ 16 % 256 * 2 ^ 8 + x / 2 ^ 24 % 256

/-- The function `ntohl`: network (big-endian) to host byte order. -/
def ntohl (little_endian : Bool) (x : Nat) : Nat :=
  if little_endian then bswap32 x else x

/-- The function `htonl`: host to network (big-endian) byte order. -/
def htonl (little_endian : Bool) (x : Nat) : Nat :=
  if little_endian then bswap32 x else x

/-- The function `increment_nonce_number` of `crypto_core.c`; `little_endian` is the byte order
of the host. -/
def increment_nonce_number (little_endian : Bool) (nonce : Bytes) (num : Nat) : Bytes :=
  let off := crypto_box_NONCEBYTES - 4
  let num1 := load_u32 little_endian ((nonce.drop off).take 4)
  let num1 := ntohl little_endian num1
  let num2 := u32 (num + num1)
  let nonce := if num2 < num1 then increment_loop nonce off else nonce
  let num2 := htonl little_endian num2
  nonce.take off ++ store_u32 little_endian num2 ++ nonce.drop (off + 4)

/-- The function `random_nonce`: `randombytes(nonce, crypto_box_NONCEBYTES)`, with `rnd` the bytes
the random generator delivers. -/
def random_nonce (rnd nonce : Bytes) : Except Fault Bytes :=
  memcpy nonce 0 rnd 0 crypto_box_NONCEBYTES

/-- The function `new_nonce` of `crypto_core.c`. -/
def new_nonce (rnd nonce : Bytes) : Except Fault Bytes :=
  random_nonce rnd nonce

/-! ## Encryption -/

/-- The function `encrypt_precompute` of `crypto_core.c`. -/
def encrypt_precompute (E : Env) (public_key secret_key enc_key : Bytes) : Except Fault Bytes := do
  let pk ← read public_key 0 crypto_box_PUBLICKEYBYTES
  let sk ← read secret_key 0 crypto_box_SECRETKEYBYTES
  memcpy enc_key 0 (E.crypto_box_beforenm pk sk) 0 crypto_box_BEFORENMBYTES

/-- The function `encrypt_data_symmetric` of `crypto_core.c`. The result is the `int` returned and
the contents of `encrypted` afterwards. -/
def encrypt_data_symmetric (E : Env) (secret_key nonce plain : Bytes) (length : Nat)
    (encrypted : Bytes) : Except Fault (Int × Bytes) :=
  if length = 0 then .ok (-1, encrypted)
  else do
    let temp_plain := stack_array E (u32 (length + crypto_box_ZEROBYTES))
    let temp_encrypted :=
      stack_array E (u32 (length + crypto_box_MACBYTES + crypto_box_BOXZEROBYTES))
    let temp_plain ← memset temp_plain 0 crypto_box_ZEROBYTES
    let temp_plain ← memcpy temp_plain crypto_box_ZEROBYTES plain 0 length
    let m ← read temp_plain 0 (u32 (length + crypto_box_ZEROBYTES))
    let n ← read nonce 0 crypto_box_NONCEBYTES
    let k ← read secret_key 0 crypto_box_BEFORENMBYTES
    match E.crypto_box_afternm m n k with
    | none => .ok (-1, encrypted)
    | some c => do
      let temp_encrypted ← memcpy temp_encrypted 0 c 0 (u32 (length + crypto_box_ZEROBYTES))
      let encrypted ←
        memcpy encrypted 0 temp_encrypted crypto_box_BOXZEROBYTES (u32 (length + crypto_box_MACBYTES))
      .ok (to_int (u32 (length + crypto_box_MACBYTES)), encrypted)

/-- The function `decrypt_data_symmetric` of `crypto_core.c`. The result is the `int` returned and
the contents of `plain` afterwards. -/
def decrypt_data_symmetric (E : Env) (secret_key nonce encrypted : Bytes) (length : Nat)
    (plain : Bytes) : Except Fault (Int × Bytes) :=
  if length ≤ crypto_box_BOXZEROBYTES then .ok (-1, plain)
  else do
    let temp_plain := stack_array E (u32 (length + crypto_box_ZEROBYTES))
    let temp_encrypted := stack_array E (u32 (length + crypto_box_BOXZEROBYTES))
    let temp_encrypted ← memset temp_encrypted 0 crypto_box_BOXZEROBYTES
    let temp_encrypted ← memcpy temp_encrypted crypto_box_BOXZEROBYTES encrypted 0 length
    let c ← read temp_encrypted 0 (u32 (length + crypto_box_BOXZEROBYTES))
    let n ← read nonce 0 crypto_box_NONCEBYTES
    let k ← read secret_key 0 crypto_box_BEFORENMBYTES
    match E.crypto_box_open_afternm c n k with
    | none => .ok (-1, plain)
    | some m => do
      let temp_plain ← memcpy temp_plain 0 m 0 (u32 (length + crypto_box_BOXZEROBYTES))
      let plain ←
        memcpy plain 0 temp_plain crypto_box_ZEROBYTES (u32 (length - crypto_box_MACBYTES))
      .ok (to_int (u32 (length - crypto_box_MACBYTES)), plain)

/-- The function `encrypt_data` of `crypto_core.c`. -/
def encrypt_data (E : Env) (public_key secret_key nonce plain : Bytes) (length : Nat)
    (encrypted : Bytes) : Except Fault (Int × Bytes) := do
  let k := stack_array E crypto_box_BEFORENMBYTES
  let k ← encrypt_precompute E public_key secret_key k
  encrypt_data_symmetric E k nonce plain length encrypted

/-- The function `decrypt_data` of `crypto_core.c`. -/
def decrypt_data (E : Env) (public_key secret_key nonce encrypted : Bytes) (length : Nat)
    (plain : Bytes) : Except Fault (Int × Bytes) := do
  let k := stack_array E crypto_box_BEFORENMBYTES
  let k ← encrypt_precompute E public_key secret_key k
  decrypt_data_symmetric E k nonce encrypted length plain

/-! ## Requests -/

/-- The function `create_request` of `crypto_core.c`. `rnd` is what the random generator delivers
for the nonce; `length` is the `uint32_t` argument. The result is the `int` returned
and the contents of `packet` afterwards. -/
def create_request (E : Env) (rnd send_public_key send_secret_key packet recv_public_key
    data : Bytes) (length request_id : Nat) : Except Fault (Int × Bytes) :=
  if E.MAX_CRYPTO_REQUEST_SIZE <
      u32 (length + 1 + crypto_box_PUBLICKEYBYTES * 2 + crypto_box_NONCEBYTES + 1 +
        crypto_box_MACBYTES) then .ok (-1, packet)
  else do
    let nonce := stack_array E crypto_box_NONCEBYTES
    let temp := stack_array E E.MAX_CRYPTO_REQUEST_SIZE
    let temp ← memcpy temp 1 data 0 length
    let temp ← store temp 0 request_id
    let nonce ← new_nonce rnd nonce
    let off := 1 + crypto_box_PUBLICKEYBYTES * 2 + crypto_box_NONCEBYTES
    let (len, encrypted) ←
      encrypt_data E recv_public_key send_secret_key nonce temp (u32 (length + 1)) (packet.drop off)
    let packet := packet.take off ++ encrypted
    if len = -1 then .ok (-1, packet)
    else do
      let packet ← store packet 0 E.NET_PACKET_CRYPTO
      let packet ← memcpy packet 1 recv_public_key 0 crypto_box_PUBLICKEYBYTES
      let packet ←
        memcpy packet (1 + crypto_box_PUBLICKEYBYTES) send_public_key 0 crypto_box_PUBLICKEYBYTES
      let packet ← memcpy packet (1 + crypto_box_PUBLICKEYBYTES * 2) nonce 0 crypto_box_NONCEBYTES
      .ok (len + 1 + crypto_box_PUBLICKEYBYTES * 2 + crypto_box_NONCEBYTES, packet)

/-- The output buffers of `handle_request`. -/
structure RequestOut where
  public_key : Bytes
  data : Bytes
  request_id : Bytes
  deriving DecidableEq, Repr

/-- The function `handle_request` of `crypto_core.c`. `length` is the `uint16_t` argument. The
result is the `int` returned and the contents of the three output buffers. -/
def handle_request (E : Env) (self_public_key self_secret_key public_key data request_id
    packet : Bytes) (length : Nat) : Except Fault (Int × RequestOut) :=
  if length ≤ crypto_box_PUBLICKEYBYTES * 2 + crypto_box_NONCEBYTES + 1 + crypto_box_MACBYTES ∨
      length > E.MAX_CRYPTO_REQUEST_SIZE then .ok (-1, ⟨public_key, data, request_id⟩)
  else do
    let differ ← memcmp_ne packet 1 self_public_key 0 crypto_box_PUBLICKEYBYTES
    if differ then .ok (-1, ⟨public_key, data, request_id⟩)
    else do
      let public_key ←
        memcpy public_key 0 packet (1 + crypto_box_PUBLICKEYBYTES) crypto_box_PUBLICKEYBYTES
      let nonce := stack_array E crypto_box_NONCEBYTES
      let temp := stack_array E E.MAX_CRYPTO_REQUEST_SIZE
      let nonce ← memcpy nonce 0 packet (1 + crypto_box_PUBLICKEYBYTES * 2) crypto_box_NONCEBYTES
      let off := 1 + crypto_box_PUBLICKEYBYTES * 2 + crypto_box_NONCEBYTES
      let (len1, temp) ←
        decrypt_data E public_key self_secret_key nonce (packet.drop off)
          (length - (crypto_box_PUBLICKEYBYTES * 2 + crypto_box_NONCEBYTES + 1)) temp
      if len1 = -1 ∨ len1 = 0 then .ok (-1, ⟨public_key, data, request_id⟩)
      else do
        let b ← load temp 0
        let request_id ← store request_id 0 b
        let len1 := len1 - 1
        let data ← memcpy data 0 temp 1 (to_size_t len1)
        .ok (len1, ⟨public_key, data, request_id⟩)

/-! ## Big-endian reading of byte strings (the specification side for nonces) -/

/-- The value of a byte string read as one big-endian integer. -/
def be_value (b : Bytes) : Nat := b.foldl (fun acc x => acc * 256 + x) 0

/-- The big-endian encoding of `v` modulo `256 ^ len` in `len` bytes. -/
def be_encode : Nat → Nat → Bytes
  | 0, _ => []
  | len + 1, v => be_encode len (v / 256) ++ [v % 256]

/-- The nonce is an array of 24 bytes. -/
def IsNonce (n : Bytes) : Prop := n.length = crypto_box_NONCEBYTES ∧ IsBytes n

instance (n : Bytes) : Decidable (IsNonce n) := by
  unfold IsNonce; infer_instance

/-! ## Auxiliary definitions for requests -/

/-- Whether `decrypt_data`, called as `handle_request` calls it on this packet (sender
key, nonce and payload taken from the packet), returns -1. -/
def payload_decryption_fails (E : Env) (self_secret_key packet : Bytes) (length : Nat) : Bool :=
  match decrypt_data E ((packet.drop 33).take 32) self_secret_key ((packet.drop 65).take 24)
      (packet.drop 89) (length - 89) (stack_array E E.MAX_CRYPTO_REQUEST_SIZE) with
  | .ok (r, _) => decide (r = -1)
  | .error _ => false

/-- An environment for evaluating the code on concrete inputs: the box is the identity
on the zero-padded message (so the authenticator is 16 zero bytes, and the opening
refuses any other), every pair of keys has the same shared key, the maximum request
size is 1024 and the packet type is 32. -/
def identity_box_env : Env where
  MAX_CRYPTO_REQUEST_SIZE := 1024
  NET_PACKET_CRYPTO := 32
  crypto_box_beforenm := fun _ _ => List.replicate 32 0
  crypto_box_afternm := fun m _ _ => some m
  crypto_box_open_afternm := fun c _ _ => if c.take 32 = List.replicate 32 0 then some c else none
  stack_byte := 170
  beforenm_length := fun _ _ => List.length_replicate 32 0
  afternm_length := fun _ _ _ _ h => by rw [← Option.some.inj h]
  open_afternm_length := fun c _ _ m h => by
    have h1 : (if c.take 32 = List.replicate 32 0 then some c else none) = some m := h
    by_cases hc : c.take 32 = List.replicate 32 0
    · rw [if_pos hc] at h1
      rw [← Option.some.inj h1]
    · rw [if_neg hc] at h1
      exact Option.noConfusion h1

/-! ## Key comparison and validation, and the payload of a request -/

/-- A public key is an array of 32 bytes. -/
def IsKey (k : Bytes) : Prop := k.length = crypto_box_PUBLICKEYBYTES ∧ IsBytes k

instance (k : Bytes) : Decidable (IsKey k) := by
  unfold IsKey; infer_instance

/-- Modelled from the spec: `crypto_verify_32` is libsodium code that `public_key_cmp`
calls and that is not part of the sources. The spec asks for a comparison of two 32-byte
keys that does not branch on byte content, and the comment in the source for the result
0 when the keys are equal and -1 when they are not: the differences of all 32 byte
pairs are accumulated with OR in an `unsigned int`, and the accumulated value is mapped
to 0 or -1 by `(1 & ((differentbits - 1) >> 8)) - 1`. -/
def crypto_verify_32 (x y : Bytes) : Int :=
  let differentbits :=
    (List.range 32).foldl (fun d i => d ||| (x.getD i 0 ^^^ y.getD i 0)) 0
  ((1 &&& (u32 (differentbits + 2 ^ 32 - 1) >>> 8) : Nat) : Int) - 1

/-- The function `public_key_cmp` of `crypto_core.c`. -/
def public_key_cmp (pk1 pk2 : Bytes) : Int := crypto_verify_32 pk1 pk2

/-- The function `public_key_valid` of `crypto_core.c`. -/
def public_key_valid (public_key : Bytes) : Int :=
  if public_key.getD 31 0 ≥ 128 then 0 else 1

/-- The call of `decrypt_data` in `handle_request`: the sender key, the nonce and the
payload are bytes 33..64, 65..88 and 89.. of the packet, and the output buffer is the
scratch array `temp`. -/
def decrypt_payload (E : Env) (self_secret_key packet : Bytes) (length : Nat) :
    Except Fault (Int × Bytes) :=
  decrypt_data E ((packet.drop 33).take 32) self_secret_key ((packet.drop 65).take 24)
    (packet.drop 89) (length - 89) (stack_array E E.MAX_CRYPTO_REQUEST_SIZE)

/-! ## Lemmas: big-endian values -/

theorem be_value_concat (l : Bytes) (x : Nat) : be_value (l ++ [x]) = be_value l * 256 + x := by
  simp [be_value, List.foldl_append]

theorem isBytes_append {l s : Bytes} : IsBytes (l ++ s) ↔ IsBytes l ∧ IsBytes s := by
  simp only [IsBytes, List.mem_append]
  constructor
  · intro h; exact ⟨fun x hx => h x (Or.inl hx), fun x hx => h x (Or.inr hx)⟩
  · rintro ⟨h1, h2⟩ x (hx | hx)
    · exact h1 x hx
    · exact h2 x hx

theorem isBytes_singleton {x : Nat} : IsBytes [x] ↔ x < 256 := by
  simp [IsBytes]

theorem be_encode_length (len v : Nat) : (be_encode len v).length = len := by
  induction len generalizing v with
  | zero => rfl
  | succ n ih => simp [be_encode, ih]

theorem be_encode_isBytes (len v : Nat) : IsBytes (be_encode len v) := by
  induction len generalizing v with
  | zero => simp [be_encode, IsBytes]
  | succ n ih =>
    rw [be_encode, isBytes_append, isBytes_singleton]
    exact ⟨ih _, Nat.mod_lt _ (by norm_num)⟩

theorem be_value_lt (l : Bytes) (h : IsBytes l) : be_value l < 256 ^ l.length := by
  induction l using List.reverseRecOn with
  | nil => simp [be_value]
  | append_singleton l x ih =>
    rw [isBytes_append, isBytes_singleton] at h
    have := ih h.1
    rw [be_value_concat, List.length_append, List.length_singleton, pow_succ]
    omega

theorem be_encode_value (l : Bytes) (h : IsBytes l) : be_encode l.length (be_value l) = l := by
  induction l using List.reverseRecOn with
  | nil => rfl
  | append_singleton l x ih =>
    rw [isBytes_append, isBytes_singleton] at h
    rw [be_value_concat, List.length_append, List.length_singleton, be_encode]
    have h1 : (be_value l * 256 + x) / 256 = be_value l := by omega
    have h2 : (be_value l * 256 + x) % 256 = x := by omega
    rw [h1, h2, ih h.1]

theorem be_value_encode (len v : Nat) : be_value (be_encode len v) = v % 256 ^ len := by
  induction len generalizing v with
  | zero => simp [be_encode, be_value, Nat.mod_one]
  | succ n ih =>
    rw [be_encode, be_value_concat, ih, pow_succ, Nat.mul_comm (256 ^ n) 256, Nat.mod_mul]
    ring

theorem be_encode_mod (len v : Nat) : be_encode len (v % 256 ^ len) = be_encode len v := by
  have h := be_encode_value (be_encode len v) (be_encode_isBytes len v)
  rw [be_encode_length, be_value_encode] at h
  exact h

theorem be_encode_inj (len v w : Nat) (h : be_encode len v = be_encode len w) :
    v % 256 ^ len = w % 256 ^ len := by
  rw [← be_value_encode, ← be_value_encode, h]

theorem be_value_append (l s : Bytes) :
    be_value (l ++ s) = be_value l * 256 ^ s.length + be_value s := by
  induction s using List.reverseRecOn with
  | nil => simp [be_value]
  | append_singleton s x ih =>
    rw [← List.append_assoc, be_value_concat, ih, be_value_concat, List.length_append,
      List.length_singleton, pow_succ]
    ring

theorem be_encode_add (a b v : Nat) :
    be_encode (a + b) v = be_encode a (v / 256 ^ b) ++ be_encode b v := by
  induction b generalizing v with
  | zero => simp [be_encode]
  | succ n ih =>
    rw [← Nat.add_assoc, be_encode, be_encode, ih, List.append_assoc, Nat.div_div_eq_div_mul,
      pow_succ, Nat.mul_comm 256]

theorem getD_append_cons (l s : Bytes) (x d : Nat) : (l ++ x :: s).getD l.length d = x := by
  induction l with
  | nil => rfl
  | cons a l ih => simpa using ih

theorem set_append_cons (l s : Bytes) (x y : Nat) :
    (l ++ x :: s).set l.length y = l ++ y :: s := by
  induction l with
  | nil => rfl
  | cons a l ih => simp [ih]

theorem increment_loop_append (l s : Bytes) (h : IsBytes l) :
    increment_loop (l ++ s) l.length
      = be_encode l.length ((be_value l + 1) % 256 ^ l.length) ++ s := by
  induction l using List.reverseRecOn generalizing s with
  | nil => simp [increment_loop, be_encode]
  | append_singleton l x ih =>
    rw [isBytes_append, isBytes_singleton] at h
    obtain ⟨hl, hx⟩ := h
    have hlt := be_value_lt l hl
    rw [List.length_append, List.length_singleton, increment_loop, List.append_assoc,
      List.singleton_append, getD_append_cons, set_append_cons, getD_append_cons,
      be_value_concat, be_encode, pow_succ]
    by_cases hc : (x + 1) % 256 = 0
    · have hx255 : x = 255 := by omega
      subst hx255
      rw [if_neg (by simp), ih _ hl]
      have e1 : (be_value l * 256 + 255 + 1) % (256 ^ l.length * 256)
          = ((be_value l + 1) % 256 ^ l.length) * 256 := by
        rw [show be_value l * 256 + 255 + 1 = (be_value l + 1) * 256 by ring,
          Nat.mul_mod_mul_right]
      rw [e1, Nat.mul_div_cancel _ (by norm_num : 0 < 256), Nat.mul_mod_left,
        List.append_assoc]
      rfl
    · rw [if_pos (by simpa using hc)]
      have hb : be_value l * 256 + x + 1 < 256 ^ l.length * 256 := by omega
      rw [Nat.mod_eq_of_lt hb]
      have h1 : (be_value l * 256 + x + 1) / 256 = be_value l := by omega
      have h2 : (be_value l * 256 + x + 1) % 256 = x + 1 := by omega
      have h3 : (x + 1) % 256 = x + 1 := by omega
      rw [h1, h2, h3, be_encode_value l hl, List.append_assoc]
      rfl

theorem increment_loop_take (n : Bytes) (k : Nat) (hk : k ≤ n.length) (h : IsBytes n) :
    increment_loop n k = be_encode k ((be_value (n.take k) + 1) % 256 ^ k) ++ n.drop k := by
  have hb : IsBytes (n.take k) := fun x hx => h x (List.mem_of_mem_take hx)
  have hlen : (n.take k).length = k := by simp [hk]
  have := increment_loop_append (n.take k) (n.drop k) hb
  rwa [List.take_append_drop, hlen] at this

theorem increment_nonce_eq (n : Bytes) (h : IsNonce n) :
    increment_nonce n = be_encode 24 ((be_value n + 1) % 2 ^ 192) := by
  have := increment_loop_take n 24 (by rw [h.1]; decide) h.2
  rw [List.take_of_length_le (by rw [h.1]; decide), List.drop_of_length_le (by rw [h.1]; decide),
    List.append_nil] at this
  rw [increment_nonce, show crypto_box_NONCEBYTES = 24 from rfl, this]
  norm_num

theorem digits_of_sum (a0 a1 a2 a3 : Nat) (h0 : a0 < 256) (h1 : a1 < 256) (h2 : a2 < 256)
    (h3 : a3 < 256) :
    (a3 * 2 ^ 24 + a2 * 2 ^ 16 + a1 * 2 ^ 8 + a0) % 256 = a0 ∧
    (a3 * 2 ^ 24 + a2 * 2 ^ 16 + a1 * 2 ^ 8 + a0) / 2 ^ 8 % 256 = a1 ∧
    (a3 * 2 ^ 24 + a2 * 2 ^ 16 + a1 * 2 ^ 8 + a0) / 2 ^ 16 % 256 = a2 ∧
    (a3 * 2 ^ 24 + a2 * 2 ^ 16 + a1 * 2 ^ 8 + a0) / 2 ^ 24 % 256 = a3 := by
  refine ⟨?_, ?_, ?_, ?_⟩ <;> omega

theorem be_value_four (b0 b1 b2 b3 : Nat) :
    be_value [b0, b1, b2, b3] = b0 * 2 ^ 24 + b1 * 2 ^ 16 + b2 * 2 ^ 8 + b3 := by
  simp only [be_value, List.foldl]
  ring

theorem be_encode_four (x : Nat) :
    be_encode 4 x = [x / 2 ^ 24 % 256, x / 2 ^ 16 % 256, x / 2 ^ 8 % 256, x % 256] := by
  have e1 : x / 256 / 256 / 256 = x / 2 ^ 24 := by omega
  have e2 : x / 256 / 256 = x / 2 ^ 16 := by omega
  have e3 : x / 256 = x / 2 ^ 8 := by omega
  simp only [be_encode, List.nil_append, List.cons_append]
  rw [e1, e2, e3]

theorem ntohl_load_u32 (le : Bool) (b : Bytes) (hlen : b.length = 4) (hb : IsBytes b) :
    ntohl le (load_u32 le b) = be_value b := by
  match b, hlen with
  | [b0, b1, b2, b3], _ =>
    have h0 : b0 < 256 := hb b0 (by simp)
    have h1 : b1 < 256 := hb b1 (by simp)
    have h2 : b2 < 256 := hb b2 (by simp)
    have h3 : b3 < 256 := hb b3 (by simp)
    rw [be_value_four]
    cases le
    · simp [ntohl, load_u32]
    · obtain ⟨e0, e1, e2, e3⟩ := digits_of_sum b0 b1 b2 b3 h0 h1 h2 h3
      simp only [ntohl, load_u32, if_true, List.getD_cons_zero, List.getD_cons_succ, bswap32]
      rw [show b0 + b1 * 2 ^ 8 + b2 * 2 ^ 16 + b3 * 2 ^ 24
        = b3 * 2 ^ 24 + b2 * 2 ^ 16 + b1 * 2 ^ 8 + b0 by ring, e0, e1, e2, e3]

theorem store_u32_htonl (le : Bool) (x : Nat) :
    store_u32 le (htonl le x) = be_encode 4 x := by
  rw [be_encode_four]
  cases le
  · simp [store_u32, htonl]
  · obtain ⟨e0, e1, e2, e3⟩ := digits_of_sum (x / 2 ^ 24 % 256) (x / 2 ^ 16 % 256)
      (x / 2 ^ 8 % 256) (x % 256) (Nat.mod_lt _ (by norm_num)) (Nat.mod_lt _ (by norm_num))
      (Nat.mod_lt _ (by norm_num)) (Nat.mod_lt _ (by norm_num))
    simp only [store_u32, htonl, if_true, bswap32]
    rw [e0, e1, e2, e3]

theorem increment_nonce_number_unfold (le : Bool) (n : Bytes) (num : Nat) :
    increment_nonce_number le n num
      = (if u32 (num + ntohl le (load_u32 le ((n.drop 20).take 4)))
            < ntohl le (load_u32 le ((n.drop 20).take 4)) then increment_loop n 20 else n).take 20
        ++ store_u32 le (htonl le (u32 (num + ntohl le (load_u32 le ((n.drop 20).take 4)))))
        ++ (if u32 (num + ntohl le (load_u32 le ((n.drop 20).take 4)))
            < ntohl le (load_u32 le ((n.drop 20).take 4)) then increment_loop n 20 else n).drop 24 :=
  rfl

theorem isNonce_take (n : Bytes) (h : IsNonce n) :
    (n.take 20).length = 20 ∧ IsBytes (n.take 20) :=
  ⟨by simp [h.1, crypto_box_NONCEBYTES], fun x hx => h.2 x (List.mem_of_mem_take hx)⟩

theorem isNonce_drop (n : Bytes) (h : IsNonce n) :
    (n.drop 20).length = 4 ∧ IsBytes (n.drop 20) :=
  ⟨by simp [h.1, crypto_box_NONCEBYTES], fun x hx => h.2 x (List.mem_of_mem_drop hx)⟩

theorem increment_nonce_number_parts (le : Bool) (n : Bytes) (num : Nat) (h : IsNonce n)
    (hnum : num < 2 ^ 32) :
    increment_nonce_number le n num
      = (if be_value (n.drop 20) + num < 2 ^ 32 then n.take 20
          else be_encode 20 ((be_value (n.take 20) + 1) % 2 ^ 160))
        ++ be_encode 4 ((be_value (n.drop 20) + num) % 2 ^ 32) := by
  obtain ⟨hdl, hdb⟩ := isNonce_drop n h
  have hlen : n.length = 24 := h.1
  have ht := be_value_lt _ hdb
  rw [hdl] at ht
  have hload : ntohl le (load_u32 le ((n.drop 20).take 4)) = be_value (n.drop 20) := by
    rw [List.take_of_length_le (Nat.le_of_eq hdl)]
    exact ntohl_load_u32 le _ hdl hdb
  have hloop := increment_loop_take n 20 (by omega) h.2
  rw [increment_nonce_number_unfold, hload, store_u32_htonl, u32, Nat.add_comm num]
  by_cases hc : be_value (n.drop 20) + num < 2 ^ 32
  · have hnc : ¬ (be_value (n.drop 20) + num) % 2 ^ 32 < be_value (n.drop 20) := by omega
    rw [if_neg hnc, if_pos hc, List.drop_of_length_le (Nat.le_of_eq hlen), List.append_nil]
  · have hcc : (be_value (n.drop 20) + num) % 2 ^ 32 < be_value (n.drop 20) := by omega
    rw [if_pos hcc, if_neg hc, hloop]
    have e : (be_encode 20 ((be_value (n.take 20) + 1) % 256 ^ 20) ++ n.drop 20).length = 24 := by
      simp [be_encode_length, hdl]
    rw [List.drop_of_length_le (Nat.le_of_eq e), List.append_nil,
      List.take_left' (be_encode_length _ _)]
    norm_num

theorem nonce_add_arith (H t num : Nat) (hH : H < 2 ^ 160) (ht : t < 2 ^ 32)
    (hnum : num < 2 ^ 32) :
    (H * 2 ^ 32 + t + num) % 2 ^ 192 / 2 ^ 32
        = (if t + num < 2 ^ 32 then H else (H + 1) % 2 ^ 160) ∧
      (H * 2 ^ 32 + t + num) % 2 ^ 192 % 2 ^ 32 = (t + num) % 2 ^ 32 := by
  split <;> omega

theorem be_value_split (n : Bytes) (h : IsNonce n) :
    be_value n = be_value (n.take 20) * 2 ^ 32 + be_value (n.drop 20) := by
  conv_lhs => rw [← List.take_append_drop 20 n]
  rw [be_value_append, (isNonce_drop n h).1]
  norm_num

theorem increment_nonce_number_eq (le : Bool) (n : Bytes) (num : Nat) (h : IsNonce n)
    (hnum : num < 2 ^ 32) :
    increment_nonce_number le n num = be_encode 24 ((be_value n + num) % 2 ^ 192) := by
  obtain ⟨hdl, hdb⟩ := isNonce_drop n h
  obtain ⟨htl, htb⟩ := isNonce_take n h
  have ht := be_value_lt _ hdb
  have hH := be_value_lt _ htb
  rw [hdl, show (256 : Nat) ^ 4 = 2 ^ 32 by norm_num] at ht
  rw [htl, show (256 : Nat) ^ 20 = 2 ^ 160 by norm_num] at hH
  obtain ⟨a1, a2⟩ := nonce_add_arith _ _ num hH ht hnum
  rw [increment_nonce_number_parts le n num h hnum, be_encode_add 20 4, be_value_split n h,
    ← be_encode_mod 4 ((be_value (n.take 20) * 2 ^ 32 + be_value (n.drop 20) + num) % 2 ^ 192),
    show (256 : Nat) ^ 4 = 2 ^ 32 by norm_num, a1, a2]
  split
  · conv_lhs => rw [← be_encode_value _ htb, htl]
  · rfl

theorem isNonce_be_encode (v : Nat) : IsNonce (be_encode 24 v) :=
  ⟨be_encode_length 24 v, be_encode_isBytes 24 v⟩

theorem be_value_nonce_lt (n : Bytes) (h : IsNonce n) : be_value n < 2 ^ 192 := by
  have := be_value_lt n h.2
  rw [h.1, show crypto_box_NONCEBYTES = 24 from rfl] at this
  norm_num at this ⊢
  exact this

theorem be_encode_value_nonce (n : Bytes) (h : IsNonce n) : be_encode 24 (be_value n) = n := by
  have := be_encode_value n h.2
  rwa [h.1] at this

theorem iterate_increment_nonce (n : Bytes) (h : IsNonce n) (k : Nat) :
    increment_nonce^[k] n = be_encode 24 ((be_value n + k) % 2 ^ 192) := by
  induction k with
  | zero =>
    rw [Function.iterate_zero, id, Nat.add_zero, Nat.mod_eq_of_lt (be_value_nonce_lt n h),
      be_encode_value_nonce n h]
  | succ k ih =>
    rw [Function.iterate_succ_apply', ih, increment_nonce_eq _ (isNonce_be_encode _),
      be_value_encode]
    congr 1
    norm_num
    omega

/-! ## Lemmas: memory primitives and the encryption functions -/

theorem memcpy_ok (dst : Bytes) (doff : Nat) (src : Bytes) (soff n : Nat)
    (hs : soff + n ≤ src.length) (hd : doff + n ≤ dst.length) :
    memcpy dst doff src soff n
      = .ok (dst.take doff ++ (src.drop soff).take n ++ dst.drop (doff + n)) := by
  rw [memcpy, if_neg (by omega), if_neg (by omega)]

theorem memset_ok (dst : Bytes) (c n : Nat) (hd : n ≤ dst.length) :
    memset dst c n = .ok (List.replicate n c ++ dst.drop n) := by
  rw [memset, if_neg (by omega)]

theorem read_ok (p : Bytes) (off n : Nat) (h : off + n ≤ p.length) :
    read p off n = .ok ((p.drop off).take n) := by
  rw [read, if_neg (by omega)]

theorem stack_array_length (E : Env) (n : Nat) : (stack_array E n).length = n := by
  simp [stack_array]

theorem to_int_small (x : Nat) (h : x < 2 ^ 31) : to_int x = (x : Int) := by
  have h1 : x % 2 ^ 32 = x := Nat.mod_eq_of_lt (by omega)
  rw [to_int, h1, if_pos h]

theorem u32_small (x : Nat) (h : x < 2 ^ 32) : u32 x = x := Nat.mod_eq_of_lt h

theorem bind_ok {α β : Type} (a : α) (f : α → Except Fault β) :
    (Except.ok a >>= f) = f a := rfl

theorem take_all (l : Bytes) (n : Nat) (h : l.length = n) : l.take n = l :=
  List.take_of_length_le (Nat.le_of_eq h)

theorem drop_all (l : Bytes) (n : Nat) (h : l.length = n) : l.drop n = [] :=
  List.drop_of_length_le (Nat.le_of_eq h)

/-- The buffer after `memset(buf, 0, z)` and `memcpy(buf + z, src, len)`, for a buffer
of exactly `z + len` bytes. -/
theorem padded_buffer (z len : Nat) (buf src : Bytes) (hb : buf.length = z + len) :
    (List.replicate z 0 ++ buf.drop z).take z ++ (src.drop 0).take len
        ++ (List.replicate z 0 ++ buf.drop z).drop (z + len)
      = List.replicate z 0 ++ src.take len := by
  have h1 : (List.replicate z 0 ++ buf.drop z).take z = List.replicate z 0 :=
    List.take_left' (by simp)
  have h2 : (List.replicate z 0 ++ buf.drop z).drop (z + len) = [] :=
    List.drop_of_length_le (by simp [hb])
  rw [h1, h2, List.drop_zero, List.append_nil]

theorem read_all (p : Bytes) (n : Nat) (h : p.length = n) : read p 0 n = .ok p := by
  rw [read_ok p 0 n (by omega), List.drop_zero, take_all p n h]

theorem read_take (p : Bytes) (n : Nat) (h : n ≤ p.length) : read p 0 n = .ok (p.take n) := by
  rw [read_ok p 0 n (by omega), List.drop_zero]

/-- What `encrypt_data_symmetric` hands to `crypto_box_afternm`, and what it does with
the answer. -/
theorem encrypt_data_symmetric_eq (E : Env) (k n plain encrypted : Bytes) (length : Nat)
    (h0 : 0 < length) (hlen : length + 16 < 2 ^ 31) (hp : length ≤ plain.length)
    (hk : 32 ≤ k.length) (hn : 24 ≤ n.length) :
    encrypt_data_symmetric E k n plain length encrypted
      = match E.crypto_box_afternm (List.replicate 32 0 ++ plain.take length) (n.take 24)
          (k.take 32) with
        | none => .ok (-1, encrypted)
        | some c =>
          if encrypted.length < length + 16 then .error .write_out_of_bounds
          else .ok ((length : Int) + 16, c.drop 16 ++ encrypted.drop (length + 16)) := by
  have e1 : u32 (length + 32) = length + 32 := u32_small _ (by omega)
  have e2 : u32 (length + 16) = length + 16 := u32_small _ (by omega)
  have e3 : length + 16 + 16 = length + 32 := by omega
  have hm : (List.replicate 32 0 ++ plain.take length).length = length + 32 := by
    simp [hp]
  simp only [encrypt_data_symmetric, crypto_box_ZEROBYTES, crypto_box_MACBYTES,
    crypto_box_BOXZEROBYTES, crypto_box_NONCEBYTES, crypto_box_BEFORENMBYTES, e1, e2, e3]
  rw [if_neg (by omega), memset_ok _ _ _ (by rw [stack_array_length]; omega)]
  simp only [bind_ok]
  rw [memcpy_ok _ _ _ _ _ (by omega) (by simp [stack_array_length]; omega)]
  simp only [bind_ok]
  rw [padded_buffer 32 length _ plain (by rw [stack_array_length]; omega),
    read_all _ _ hm, read_take n 24 hn, read_take k 32 hk]
  simp only [bind_ok]
  cases hc : E.crypto_box_afternm (List.replicate 32 0 ++ plain.take length) (n.take 24)
      (k.take 32) with
  | none => rfl
  | some c =>
    have hcl : c.length = length + 32 := by rw [E.afternm_length _ _ _ _ hc, hm]
    simp only []
    rw [memcpy_ok _ _ _ _ _ (by omega) (by rw [stack_array_length]; omega)]
    simp only [bind_ok, List.take_zero, List.nil_append, List.drop_zero, Nat.zero_add]
    rw [take_all c _ hcl, drop_all _ _ (stack_array_length E _), List.append_nil]
    by_cases hb : encrypted.length < length + 16
    · rw [if_pos hb, memcpy, if_neg (by omega), if_pos (by omega)]
      rfl
    · rw [if_neg hb, memcpy_ok _ _ _ _ _ (by omega) (by omega)]
      simp only [bind_ok, List.take_zero, List.nil_append, Nat.zero_add]
      rw [take_all (c.drop 16) _ (by simp [hcl]), to_int_small _ (by omega)]
      rfl

/-- What `decrypt_data_symmetric` hands to `crypto_box_open_afternm`, and what it does
with the answer. -/
theorem decrypt_data_symmetric_eq (E : Env) (k n encrypted plain : Bytes) (length : Nat)
    (h0 : 16 < length) (hlen : length < 2 ^ 31) (hp : length ≤ encrypted.length)
    (hk : 32 ≤ k.length) (hn : 24 ≤ n.length) :
    decrypt_data_symmetric E k n encrypted length plain
      = match E.crypto_box_open_afternm (List.replicate 16 0 ++ encrypted.take length)
          (n.take 24) (k.take 32) with
        | none => .ok (-1, plain)
        | some m =>
          if plain.length < length - 16 then .error .write_out_of_bounds
          else .ok ((length : Int) - 16, m.drop 32 ++ plain.drop (length - 16)) := by
  have e1 : u32 (length + 32) = length + 32 := u32_small _ (by omega)
  have e2 : u32 (length + 16) = length + 16 := u32_small _ (by omega)
  have e3 : u32 (length - 16) = length - 16 := u32_small _ (by omega)
  have hc : (List.replicate 16 0 ++ encrypted.take length).length = length + 16 := by
    simp [hp]
  simp only [decrypt_data_symmetric, crypto_box_ZEROBYTES, crypto_box_MACBYTES,
    crypto_box_BOXZEROBYTES, crypto_box_NONCEBYTES, crypto_box_BEFORENMBYTES, e1, e2, e3]
  rw [if_neg (by omega), memset_ok _ _ _ (by rw [stack_array_length]; omega)]
  simp only [bind_ok]
  rw [memcpy_ok _ _ _ _ _ (by omega) (by simp [stack_array_length]; omega)]
  simp only [bind_ok]
  rw [padded_buffer 16 length _ encrypted (by rw [stack_array_length]; omega),
    read_all _ _ hc, read_take n 24 hn, read_take k 32 hk]
  simp only [bind_ok]
  cases ho : E.crypto_box_open_afternm (List.replicate 16 0 ++ encrypted.take length)
      (n.take 24) (k.take 32) with
  | none => rfl
  | some m =>
    have hml : m.length = length + 16 := by rw [E.open_afternm_length _ _ _ _ ho, hc]
    simp only []
    rw [memcpy_ok _ _ _ _ _ (by omega) (by rw [stack_array_length]; omega)]
    simp only [bind_ok, List.take_zero, List.nil_append, List.drop_zero, Nat.zero_add]
    rw [take_all m _ hml]
    by_cases hb : plain.length < length - 16
    · rw [if_pos hb, memcpy, if_neg (by simp [hml, stack_array_length]; omega),
        if_pos (by omega)]
      rfl
    · rw [if_neg hb, memcpy_ok _ _ _ _ _ (by simp [hml, stack_array_length]; omega) (by omega)]
      simp only [bind_ok, List.take_zero, List.nil_append, Nat.zero_add]
      rw [List.drop_append_of_le_length (by omega),
        List.take_left' (by simp [hml]), to_int_small _ (by omega)]
      congr 2
      omega

theorem encrypt_precompute_eq (E : Env) (pk sk : Bytes) (hpk : 32 ≤ pk.length)
    (hsk : 32 ≤ sk.length) :
    encrypt_precompute E pk sk (stack_array E crypto_box_BEFORENMBYTES)
      = .ok (E.crypto_box_beforenm (pk.take 32) (sk.take 32)) := by
  have hK := E.beforenm_length (pk.take 32) (sk.take 32)
  simp only [encrypt_precompute, crypto_box_PUBLICKEYBYTES, crypto_box_SECRETKEYBYTES,
    crypto_box_BEFORENMBYTES]
  rw [read_take pk 32 hpk, read_take sk 32 hsk]
  simp only [bind_ok]
  rw [memcpy_ok _ _ _ _ _ (by omega) (by rw [stack_array_length])]
  simp only [List.take_zero, List.nil_append, List.drop_zero, Nat.zero_add]
  rw [take_all _ _ hK, drop_all _ _ (stack_array_length E 32), List.append_nil]

theorem encrypt_data_eq (E : Env) (pk sk n plain encrypted : Bytes) (length : Nat)
    (h0 : 0 < length) (hlen : length + 16 < 2 ^ 31) (hp : length ≤ plain.length)
    (hpk : 32 ≤ pk.length) (hsk : 32 ≤ sk.length) (hn : 24 ≤ n.length) :
    encrypt_data E pk sk n plain length encrypted
      = match E.crypto_box_afternm (List.replicate 32 0 ++ plain.take length) (n.take 24)
          (E.crypto_box_beforenm (pk.take 32) (sk.take 32)) with
        | none => .ok (-1, encrypted)
        | some c =>
          if encrypted.length < length + 16 then .error .write_out_of_bounds
          else .ok ((length : Int) + 16, c.drop 16 ++ encrypted.drop (length + 16)) := by
  have hK := E.beforenm_length (pk.take 32) (sk.take 32)
  simp only [encrypt_data]
  rw [encrypt_precompute_eq E pk sk hpk hsk]
  simp only [bind_ok]
  rw [encrypt_data_symmetric_eq E _ n plain encrypted length h0 hlen hp (Nat.le_of_eq hK.symm) hn,
    take_all _ _ hK]

theorem decrypt_data_eq (E : Env) (pk sk n encrypted plain : Bytes) (length : Nat)
    (h0 : 16 < length) (hlen : length < 2 ^ 31) (hp : length ≤ encrypted.length)
    (hpk : 32 ≤ pk.length) (hsk : 32 ≤ sk.length) (hn : 24 ≤ n.length) :
    decrypt_data E pk sk n encrypted length plain
      = match E.crypto_box_open_afternm (List.replicate 16 0 ++ encrypted.take length)
          (n.take 24) (E.crypto_box_beforenm (pk.take 32) (sk.take 32)) with
        | none => .ok (-1, plain)
        | some m =>
          if plain.length < length - 16 then .error .write_out_of_bounds
          else .ok ((length : Int) - 16, m.drop 32 ++ plain.drop (length - 16)) := by
  have hK := E.beforenm_length (pk.take 32) (sk.take 32)
  simp only [decrypt_data]
  rw [encrypt_precompute_eq E pk sk hpk hsk]
  simp only [bind_ok]
  rw [decrypt_data_symmetric_eq E _ n encrypted plain length h0 hlen hp (Nat.le_of_eq hK.symm) hn,
    take_all _ _ hK]

theorem memcmp_ne_ok (a : Bytes) (aoff : Nat) (b : Bytes) (boff n : Nat)
    (ha : aoff + n ≤ a.length) (hb : boff + n ≤ b.length) :
    memcmp_ne a aoff b boff n = .ok (decide ((a.drop aoff).take n ≠ (b.drop boff).take n)) := by
  rw [memcmp_ne, if_neg (by omega), if_neg (by omega)]

theorem load_ok (p : Bytes) (i : Nat) (h : i < p.length) : load p i = .ok (p.getD i 0) := by
  rw [load, dif_pos h, List.getD_eq_getElem _ _ h]
  rfl

theorem getD_zero_drop_append (m x : Bytes) (k : Nat) (h : k < m.length) :
    (m.drop k ++ x).getD 0 0 = m.getD k 0 := by
  rw [List.drop_eq_getElem_cons h, List.getD_eq_getElem _ _ h]
  rfl

theorem to_size_t_small (x : Nat) (h : x < 2 ^ 64) : to_size_t (x : Int) = x := by
  rw [to_size_t]
  omega

theorem handle_request_reject_length (E : Env) (spk ssk pk data rid packet : Bytes)
    (length : Nat) (h : length ≤ 105 ∨ E.MAX_CRYPTO_REQUEST_SIZE < length) :
    handle_request E spk ssk pk data rid packet length = .ok (-1, ⟨pk, data, rid⟩) := by
  rw [handle_request, if_pos]
  simpa [crypto_box_PUBLICKEYBYTES, crypto_box_NONCEBYTES, crypto_box_MACBYTES] using h

theorem handle_request_checked (E : Env) (spk ssk pk data rid packet : Bytes) (length : Nat)
    (h1 : 105 < length) (h2 : length ≤ E.MAX_CRYPTO_REQUEST_SIZE)
    (hl16 : length < 2 ^ 16) (hpl : length ≤ packet.length)
    (hspk : 32 ≤ spk.length) (hssk : 32 ≤ ssk.length) (hpk : 32 ≤ pk.length) :
    handle_request E spk ssk pk data rid packet length
      = if (packet.drop 1).take 32 ≠ spk.take 32 then .ok (-1, ⟨pk, data, rid⟩)
        else
          match E.crypto_box_open_afternm
              (List.replicate 16 0 ++ (packet.drop 89).take (length - 89))
              ((packet.drop 65).take 24)
              (E.crypto_box_beforenm ((packet.drop 33).take 32) (ssk.take 32)) with
          | none => .ok (-1, ⟨(packet.drop 33).take 32 ++ pk.drop 32, data, rid⟩)
          | some m =>
            (store rid 0 (m.getD 32 0)) >>= fun request_id =>
            (memcpy data 0
              (m.drop 32 ++ (stack_array E E.MAX_CRYPTO_REQUEST_SIZE).drop (length - 105)) 1
              (length - 106)) >>= fun data =>
            .ok ((length : Int) - 106,
              ⟨(packet.drop 33).take 32 ++ pk.drop 32, data, request_id⟩) := by
  have hg : ¬ (length ≤ 32 * 2 + 24 + 1 + 16 ∨ length > E.MAX_CRYPTO_REQUEST_SIZE) := by omega
  simp only [handle_request, crypto_box_PUBLICKEYBYTES, crypto_box_NONCEBYTES,
    crypto_box_MACBYTES]
  rw [if_neg hg, memcmp_ne_ok _ _ _ _ _ (by omega) (by omega)]
  simp only [bind_ok, List.drop_zero]
  by_cases hd : (packet.drop 1).take 32 ≠ spk.take 32
  · rw [if_pos hd, if_pos (by simpa using hd)]
  · rw [if_neg hd, if_neg (by simpa using hd)]
    rw [memcpy_ok _ _ _ _ _ (by omega) (by omega)]
    simp only [bind_ok]
    rw [memcpy_ok _ _ _ _ _ (by omega) (by rw [stack_array_length])]
    simp only [bind_ok, List.take_zero, List.nil_append, Nat.zero_add]
    rw [drop_all _ _ (stack_array_length E 24), List.append_nil]
    have hk32 : ((packet.drop 33).take 32).length = 32 := by simp; omega
    have hn24 : ((packet.drop 65).take 24).length = 24 := by simp; omega
    rw [decrypt_data_eq E _ ssk _ _ _ (length - (32 * 2 + 24 + 1)) (by omega) (by omega)
      (by simp; omega) (by simp; omega) hssk (Nat.le_of_eq hn24.symm)]
    rw [List.take_left' hk32, take_all _ _ hn24,
      show length - (32 * 2 + 24 + 1) = length - 89 by omega,
      show 1 + 32 * 2 + 24 = 89 by omega]
    cases ho : E.crypto_box_open_afternm
        (List.replicate 16 0 ++ (packet.drop 89).take (length - 89))
        ((packet.drop 65).take 24)
        (E.crypto_box_beforenm ((packet.drop 33).take 32) (ssk.take 32)) with
    | none => rfl
    | some m =>
      have hml : m.length = length - 73 := by
        rw [E.open_afternm_length _ _ _ _ ho]
        simp
        omega
      simp only []
      rw [if_neg (by rw [stack_array_length]; omega)]
      simp only [bind_ok]
      have hi : ((length - 89 : Nat) : Int) - 16 - 1 = ((length - 106 : Nat) : Int) := by omega
      have hi2 : ((length - 106 : Nat) : Int) = (length : Int) - 106 := by omega
      rw [if_neg (by omega), load_ok _ _ (by simp [hml]; omega),
        getD_zero_drop_append m _ 32 (by omega), hi, to_size_t_small _ (by omega), hi2,
        show length - 89 - 16 = length - 105 by omega, show 1 + 32 = 33 by rfl]
      rfl

theorem memcpy_splice (a old rest src : Bytes) (off soff n : Nat) (ha : a.length = off)
    (ho : old.length = n) (hs : soff + n ≤ src.length) :
    memcpy (a ++ (old ++ rest)) off src soff n = .ok (a ++ ((src.drop soff).take n ++ rest)) := by
  rw [memcpy_ok _ _ _ _ _ hs (by simp; omega), List.take_left' ha, ← List.append_assoc a old rest,
    List.drop_left' (by simp; omega), List.append_assoc]

theorem segment_eq (a seg rest : Bytes) (off n : Nat) (ha : a.length = off)
    (hn : seg.length = n) : ((a ++ (seg ++ rest)).drop off).take n = seg := by
  rw [List.drop_left' ha, List.take_left' hn]

theorem store_ok (p : Bytes) (i v : Nat) (h : i < p.length) :
    store p i v = .ok (p.set i (v % 256)) := by
  rw [store, if_pos h]

/-- The four header fields of a packet buffer of at least 89 bytes. -/
theorem packet_fields (p : Bytes) (h : 89 ≤ p.length) :
    ∃ a0 a1 a2 a3 : Bytes, ∃ x : Nat, a0 = [x] ∧ a1.length = 32 ∧ a2.length = 32 ∧
      a3.length = 24 ∧ p = a0 ++ (a1 ++ (a2 ++ (a3 ++ p.drop 89))) := by
  refine ⟨p.take 1, (p.drop 1).take 32, (p.drop 33).take 32, (p.drop 65).take 24,
    p.getD 0 0, ?_, by simp; omega, by simp; omega, by simp; omega, ?_⟩
  · cases p with
    | nil => simp at h
    | cons b t => rfl
  · have e1 : p.drop 89 = (p.drop 65).drop 24 := by rw [List.drop_drop]
    have e2 : p.drop 65 = (p.drop 33).drop 32 := by rw [List.drop_drop]
    have e3 : p.drop 33 = (p.drop 1).drop 32 := by rw [List.drop_drop]
    rw [e1, List.take_append_drop, e2, List.take_append_drop, e3, List.take_append_drop,
      List.take_append_drop]

/-- The scratch buffer of `create_request` after `memcpy(temp + 1, data, length)` and
`temp[0] = request_id`. -/
theorem create_request_temp (E : Env) (data : Bytes) (length rid M : Nat)
    (hfit : length + 1 ≤ M) (hdata : length ≤ data.length) :
    (memcpy (stack_array E M) 1 data 0 length >>= fun temp => store temp 0 rid)
      = .ok ((rid % 256) :: data.take length ++ (stack_array E M).drop (1 + length)) := by
  rw [memcpy_ok _ _ _ _ _ (by omega) (by rw [stack_array_length]; omega)]
  simp only [bind_ok, List.drop_zero]
  have h1 : (stack_array E M).take 1 = [E.stack_byte] := by
    obtain ⟨k, rfl⟩ : ∃ k, M = k + 1 := ⟨M - 1, by omega⟩
    simp [stack_array, List.replicate_succ]
  rw [h1, store_ok _ _ _ (by simp)]
  rfl

theorem create_request_eq (E : Env) (rnd spk ssk packet rpk data : Bytes) (length rid : Nat)
    (hfit : length + 106 ≤ E.MAX_CRYPTO_REQUEST_SIZE)
    (hmax : E.MAX_CRYPTO_REQUEST_SIZE < 2 ^ 16)
    (hdata : length ≤ data.length) (hrnd : 24 ≤ rnd.length) (hspk : 32 ≤ spk.length)
    (hssk : 32 ≤ ssk.length) (hrpk : 32 ≤ rpk.length) (hpacket : length + 106 ≤ packet.length) :
    create_request E rnd spk ssk packet rpk data length rid
      = match E.crypto_box_afternm (List.replicate 32 0 ++ (rid % 256) :: data.take length)
          (rnd.take 24) (E.crypto_box_beforenm (rpk.take 32) (ssk.take 32)) with
        | none => .ok (-1, packet)
        | some c =>
          .ok ((length : Int) + 106,
            [E.NET_PACKET_CRYPTO % 256] ++ (rpk.take 32 ++ (spk.take 32 ++ (rnd.take 24 ++
              (c.drop 16 ++ packet.drop (length + 106)))))) := by
  have hg : ¬ E.MAX_CRYPTO_REQUEST_SIZE < u32 (length + 1 + 32 * 2 + 24 + 1 + 16) := by
    rw [u32_small _ (by omega)]; omega
  have hn24 : (rnd.take 24).length = 24 := by simp; omega
  have htemp := create_request_temp E data length rid E.MAX_CRYPTO_REQUEST_SIZE (by omega) hdata
  simp only [create_request, crypto_box_PUBLICKEYBYTES, crypto_box_NONCEBYTES,
    crypto_box_MACBYTES]
  rw [if_neg hg]
  rw [← bind_assoc, htemp]
  simp only [bind_ok, new_nonce, random_nonce, crypto_box_NONCEBYTES]
  rw [memcpy_ok _ _ _ _ _ (by omega) (by rw [stack_array_length])]
  simp only [bind_ok, List.take_zero, List.nil_append, Nat.zero_add, List.drop_zero]
  rw [drop_all _ _ (stack_array_length E 24), List.append_nil, u32_small _ (by omega),
    encrypt_data_eq E rpk ssk _ _ _ (length + 1) (by omega) (by omega)
      (by simp [stack_array_length]; omega) hrpk hssk (Nat.le_of_eq hn24.symm),
    take_all _ _ hn24]
  have hplain : ((rid % 256) :: data.take length
      ++ (stack_array E E.MAX_CRYPTO_REQUEST_SIZE).drop (1 + length)).take (length + 1)
      = (rid % 256) :: data.take length := by
    exact List.take_left' (by simp; omega)
  rw [hplain]
  cases hc : E.crypto_box_afternm (List.replicate 32 0 ++ (rid % 256) :: data.take length)
      (rnd.take 24) (E.crypto_box_beforenm (rpk.take 32) (ssk.take 32)) with
  | none =>
    simp only [bind_ok]
    rw [List.take_append_drop]
    rfl
  | some c =>
    simp only []
    rw [if_neg (by simp; omega)]
    simp only [bind_ok]
    rw [if_neg (by omega)]
    obtain ⟨a0, a1, a2, a3, x, h0, h1, h2, h3, hp⟩ := packet_fields packet (by omega)
    have ht : packet.take (1 + 32 * 2 + 24) = a0 ++ (a1 ++ (a2 ++ a3)) := by
      conv_lhs => rw [hp]
      rw [← List.append_assoc a2, ← List.append_assoc a1, ← List.append_assoc a0]
      exact List.take_left' (by simp [h0, h1, h2, h3])
    rw [ht, List.drop_drop,
      show 1 + 32 * 2 + 24 + (length + 1 + 16) = length + 106 by omega]
    subst h0
    simp only [List.append_assoc, List.singleton_append, List.cons_append]
    rw [store_ok _ _ _ (by simp)]
    simp only [bind_ok, List.set_cons_zero]
    have m1 := memcpy_splice [E.NET_PACKET_CRYPTO % 256] a1
      (a2 ++ (a3 ++ (c.drop 16 ++ packet.drop (length + 106)))) rpk 1 0 32 rfl h1 (by omega)
    have m2 := memcpy_splice ([E.NET_PACKET_CRYPTO % 256] ++ rpk.take 32) a2
      (a3 ++ (c.drop 16 ++ packet.drop (length + 106))) spk (1 + 32) 0 32 (by simp; omega) h2
      (by omega)
    have m3 := memcpy_splice ([E.NET_PACKET_CRYPTO % 256] ++ (rpk.take 32 ++ spk.take 32)) a3
      (c.drop 16 ++ packet.drop (length + 106)) (rnd.take 24) (1 + 32 * 2) 0 24
      (by simp; omega) h3 (by omega)
    simp only [List.append_assoc, List.singleton_append, List.cons_append, List.drop_zero,
      List.take_take, Nat.min_self] at m1 m2 m3
    rw [m1]
    simp only [bind_ok]
    rw [m2]
    simp only [bind_ok]
    rw [m3]
    simp only [bind_ok, List.append_assoc, List.singleton_append]
    have hi : ((length + 1 : Nat) : Int) + 16 + 1 + ((32 : Nat) : Int) * 2 + ((24 : Nat) : Int)
        = (length : Int) + 106 := by
      push_cast
      ring
    rw [hi]

theorem payload_decryption_fails_iff (E : Env) (ssk packet : Bytes) (length : Nat)
    (h1 : 105 < length) (h2 : length ≤ E.MAX_CRYPTO_REQUEST_SIZE) (hl16 : length < 2 ^ 16)
    (hpl : length ≤ packet.length) (hssk : 32 ≤ ssk.length) :
    payload_decryption_fails E ssk packet length = true ↔
      E.crypto_box_open_afternm (List.replicate 16 0 ++ (packet.drop 89).take (length - 89))
        ((packet.drop 65).take 24)
        (E.crypto_box_beforenm ((packet.drop 33).take 32) (ssk.take 32)) = none := by
  have hk32 : ((packet.drop 33).take 32).length = 32 := by simp; omega
  have hn24 : ((packet.drop 65).take 24).length = 24 := by simp; omega
  rw [payload_decryption_fails, decrypt_data_eq E _ ssk _ _ _ (length - 89) (by omega) (by omega)
      (by simp; omega) (Nat.le_of_eq hk32.symm) hssk (Nat.le_of_eq hn24.symm),
    take_all _ _ hk32, take_all _ _ hn24]
  cases ho : E.crypto_box_open_afternm
      (List.replicate 16 0 ++ (packet.drop 89).take (length - 89))
      ((packet.drop 65).take 24)
      (E.crypto_box_beforenm ((packet.drop 33).take 32) (ssk.take 32)) with
  | none => simp
  | some m =>
    simp only []
    rw [if_neg (by rw [stack_array_length]; omega)]
    simp only [decide_eq_true_eq]
    constructor
    · intro h
      omega
    · intro h
      exact absurd h (by simp)

/-- The fields of a packet laid out as type byte, two keys, nonce, payload. -/
theorem packet_segments (t : Nat) (a1 a2 a3 a4 r : Bytes) (n : Nat) (h1 : a1.length = 32)
    (h2 : a2.length = 32) (h3 : a3.length = 24) (h4 : a4.length = n) :
    (([t] ++ (a1 ++ (a2 ++ (a3 ++ (a4 ++ r))))).drop 1).take 32 = a1 ∧
    (([t] ++ (a1 ++ (a2 ++ (a3 ++ (a4 ++ r))))).drop 33).take 32 = a2 ∧
    (([t] ++ (a1 ++ (a2 ++ (a3 ++ (a4 ++ r))))).drop 65).take 24 = a3 ∧
    (([t] ++ (a1 ++ (a2 ++ (a3 ++ (a4 ++ r))))).drop 89).take n = a4 := by
  refine ⟨segment_eq [t] a1 _ 1 32 rfl h1, ?_, ?_, ?_⟩
  · rw [← List.append_assoc [t] a1]
    exact segment_eq ([t] ++ a1) a2 _ 33 32 (by simp [h1]) h2
  · rw [← List.append_assoc a1 a2, ← List.append_assoc [t]]
    exact segment_eq ([t] ++ (a1 ++ a2)) a3 _ 65 24 (by simp [h1, h2]) h3
  · rw [← List.append_assoc a2 a3, ← List.append_assoc a1, ← List.append_assoc [t]]
    exact segment_eq ([t] ++ (a1 ++ (a2 ++ a3))) a4 _ 89 n (by simp [h1, h2, h3]) h4

/-! ## Lemmas: return values, key comparison, request packets -/

/-- The general form of `encrypt_data_symmetric_eq`: the lengths fit `uint32_t`, the
value returned is the conversion of `length + 16` to `int`. -/
theorem encrypt_data_symmetric_wide (E : Env) (k n plain encrypted : Bytes) (length : Nat)
    (h0 : 0 < length) (hlen : length + 32 < 2 ^ 32) (hp : length ≤ plain.length)
    (hk : 32 ≤ k.length) (hn : 24 ≤ n.length) :
    encrypt_data_symmetric E k n plain length encrypted
      = match E.crypto_box_afternm (List.replicate 32 0 ++ plain.take length) (n.take 24)
          (k.take 32) with
        | none => .ok (-1, encrypted)
        | some c =>
          if encrypted.length < length + 16 then .error .write_out_of_bounds
          else .ok (to_int (length + 16), c.drop 16 ++ encrypted.drop (length + 16)) := by
  have e1 : u32 (length + 32) = length + 32 := u32_small _ (by omega)
  have e2 : u32 (length + 16) = length + 16 := u32_small _ (by omega)
  have e3 : length + 16 + 16 = length + 32 := by omega
  have hm : (List.replicate 32 0 ++ plain.take length).length = length + 32 := by
    rw [List.length_append, List.length_replicate, List.length_take, Nat.min_eq_left hp]
    omega
  simp only [encrypt_data_symmetric, crypto_box_ZEROBYTES, crypto_box_MACBYTES,
    crypto_box_BOXZEROBYTES, crypto_box_NONCEBYTES, crypto_box_BEFORENMBYTES, e1, e2, e3]
  rw [if_neg (by omega), memset_ok _ _ _ (by rw [stack_array_length]; omega)]
  simp only [bind_ok]
  rw [memcpy_ok _ _ _ _ _ (by omega) (by simp [stack_array_length]; omega)]
  simp only [bind_ok]
  rw [padded_buffer 32 length _ plain (by rw [stack_array_length]; omega),
    read_all _ _ hm, read_take n 24 hn, read_take k 32 hk]
  simp only [bind_ok]
  cases hc : E.crypto_box_afternm (List.replicate 32 0 ++ plain.take length) (n.take 24)
      (k.take 32) with
  | none => rfl
  | some c =>
    have hcl : c.length = length + 32 := by rw [E.afternm_length _ _ _ _ hc, hm]
    simp only []
    rw [memcpy_ok _ _ _ _ _ (by omega) (by rw [stack_array_length]; omega)]
    simp only [bind_ok, List.take_zero, List.nil_append, List.drop_zero, Nat.zero_add]
    rw [take_all c _ hcl, drop_all _ _ (stack_array_length E _), List.append_nil]
    by_cases hb : encrypted.length < length + 16
    · rw [if_pos hb, memcpy, if_neg (by omega), if_pos (by omega)]
      rfl
    · rw [if_neg hb, memcpy_ok _ _ _ _ _ (by omega) (by omega)]
      simp only [bind_ok, List.take_zero, List.nil_append, Nat.zero_add]
      rw [take_all (c.drop 16) _ (by simp [hcl])]

/-- The general form of `decrypt_data_symmetric_eq`: the lengths fit `uint32_t`, the
value returned is the conversion of `length - 16` to `int`. -/
theorem decrypt_data_symmetric_wide (E : Env) (k n encrypted plain : Bytes) (length : Nat)
    (h0 : 16 < length) (hlen : length + 32 < 2 ^ 32) (hp : length ≤ encrypted.length)
    (hk : 32 ≤ k.length) (hn : 24 ≤ n.length) :
    decrypt_data_symmetric E k n encrypted length plain
      = match E.crypto_box_open_afternm (List.replicate 16 0 ++ encrypted.take length)
          (n.take 24) (k.take 32) with
        | none => .ok (-1, plain)
        | some m =>
          if plain.length < length - 16 then .error .write_out_of_bounds
          else .ok (to_int (length - 16), m.drop 32 ++ plain.drop (length - 16)) := by
  have e1 : u32 (length + 32) = length + 32 := u32_small _ (by omega)
  have e2 : u32 (length + 16) = length + 16 := u32_small _ (by omega)
  have e3 : u32 (length - 16) = length - 16 := u32_small _ (by omega)
  have hc : (List.replicate 16 0 ++ encrypted.take length).length = length + 16 := by
    rw [List.length_append, List.length_replicate, List.length_take, Nat.min_eq_left hp]
    omega
  simp only [decrypt_data_symmetric, crypto_box_ZEROBYTES, crypto_box_MACBYTES,
    crypto_box_BOXZEROBYTES, crypto_box_NONCEBYTES, crypto_box_BEFORENMBYTES, e1, e2, e3]
  rw [if_neg (by omega), memset_ok _ _ _ (by rw [stack_array_length]; omega)]
  simp only [bind_ok]
  rw [memcpy_ok _ _ _ _ _ (by omega) (by simp [stack_array_length]; omega)]
  simp only [bind_ok]
  rw [padded_buffer 16 length _ encrypted (by rw [stack_array_length]; omega),
    read_all _ _ hc, read_take n 24 hn, read_take k 32 hk]
  simp only [bind_ok]
  cases ho : E.crypto_box_open_afternm (List.replicate 16 0 ++ encrypted.take length)
      (n.take 24) (k.take 32) with
  | none => rfl
  | some m =>
    have hml : m.length = length + 16 := by rw [E.open_afternm_length _ _ _ _ ho, hc]
    simp only []
    rw [memcpy_ok _ _ _ _ _ (by omega) (by rw [stack_array_length]; omega)]
    simp only [bind_ok, List.take_zero, List.nil_append, List.drop_zero, Nat.zero_add]
    rw [take_all m _ hml]
    by_cases hb : plain.length < length - 16
    · rw [if_pos hb, memcpy, if_neg (by simp [hml, stack_array_length]; omega),
        if_pos (by omega)]
      rfl
    · rw [if_neg hb, memcpy_ok _ _ _ _ _ (by simp [hml, stack_array_length]; omega) (by omega)]
      simp only [bind_ok, List.take_zero, List.nil_append, Nat.zero_add]
      rw [List.drop_append_of_le_length (by omega),
        List.take_left' (by simp [hml])]

theorem to_int_two_pow_31 : to_int (2 ^ 31) = -2147483648 := by
  decide

/-- The value `encrypt_data_symmetric` returns for a plaintext of `2^31 - 16` bytes on
which the box primitive succeeds. -/
theorem encrypt_data_symmetric_large (E : Env) (k n plain encrypted c : Bytes)
    (hp : plain.length = 2147483632) (hk : k.length = 32) (hn : n.length = 24)
    (he : encrypted.length = 2147483648)
    (hbox : E.crypto_box_afternm (List.replicate 32 0 ++ plain) n k = some c) :
    Except.map Prod.fst (encrypt_data_symmetric E k n plain 2147483632 encrypted)
      = .ok (-2147483648) := by
  rw [encrypt_data_symmetric_wide E k n plain encrypted 2147483632 (by norm_num) (by norm_num)
    (Nat.le_of_eq hp.symm) (Nat.le_of_eq hk.symm) (Nat.le_of_eq hn.symm),
    take_all plain _ hp, take_all n 24 hn, take_all k 32 hk, hbox]
  simp only []
  rw [if_neg (by rw [he]; norm_num), show (2147483632 : Nat) + 16 = 2 ^ 31 by norm_num,
    to_int_two_pow_31]
  rfl

/-- The value `decrypt_data_symmetric` returns for a ciphertext of `2^31 + 16` bytes
that the box-open primitive accepts. -/
theorem decrypt_data_symmetric_large (E : Env) (k n encrypted plain m : Bytes)
    (hp : encrypted.length = 2147483664) (hk : k.length = 32) (hn : n.length = 24)
    (hpl : plain.length = 2147483648)
    (hopen : E.crypto_box_open_afternm (List.replicate 16 0 ++ encrypted) n k = some m) :
    Except.map Prod.fst (decrypt_data_symmetric E k n encrypted 2147483664 plain)
      = .ok (-2147483648) := by
  rw [decrypt_data_symmetric_wide E k n encrypted plain 2147483664 (by norm_num) (by norm_num)
    (Nat.le_of_eq hp.symm) (Nat.le_of_eq hk.symm) (Nat.le_of_eq hn.symm),
    take_all encrypted _ hp, take_all n 24 hn, take_all k 32 hk, hopen]
  simp only []
  rw [if_neg (by rw [hpl]; norm_num), show (2147483664 : Nat) - 16 = 2 ^ 31 by norm_num,
    to_int_two_pow_31]
  rfl

theorem identity_box_open_zeros (len : Nat) (h : 16 ≤ len) (n k : Bytes) :
    identity_box_env.crypto_box_open_afternm (List.replicate 16 0 ++ List.replicate len 0) n k
      = some (List.replicate 16 0 ++ List.replicate len 0) := by
  have h1 : (List.replicate 16 0 ++ List.replicate len 0).take 32 = List.replicate 32 0 := by
    rw [List.append_replicate_replicate, List.take_replicate, Nat.min_eq_left (by omega)]
  have h2 : identity_box_env.crypto_box_open_afternm
      (List.replicate 16 0 ++ List.replicate len 0) n k
      = (if (List.replicate 16 0 ++ List.replicate len 0).take 32 = List.replicate 32 0
          then some (List.replicate 16 0 ++ List.replicate len 0) else none) := rfl
  rw [h2, if_pos h1]

/-- When `crypto_box_open_afternm` reports failure, `decrypt_data_symmetric` returns -1
and leaves `plain` as it was. -/
theorem decrypt_data_symmetric_open_fails (E : Env) (k n encrypted plain : Bytes)
    (length : Nat) (h0 : 16 < length) (hlen : length + 16 < 2 ^ 32)
    (hp : length ≤ encrypted.length) (hk : 32 ≤ k.length) (hn : 24 ≤ n.length)
    (hopen : E.crypto_box_open_afternm (List.replicate 16 0 ++ encrypted.take length)
      (n.take 24) (k.take 32) = none) :
    decrypt_data_symmetric E k n encrypted length plain = .ok (-1, plain) := by
  have e2 : u32 (length + 16) = length + 16 := u32_small _ hlen
  have hc : (List.replicate 16 0 ++ encrypted.take length).length = length + 16 := by
    rw [List.length_append, List.length_replicate, List.length_take, Nat.min_eq_left hp]
    omega
  simp only [decrypt_data_symmetric, crypto_box_ZEROBYTES, crypto_box_MACBYTES,
    crypto_box_BOXZEROBYTES, crypto_box_NONCEBYTES, crypto_box_BEFORENMBYTES, e2]
  rw [if_neg (by omega), memset_ok _ _ _ (by rw [stack_array_length]; omega)]
  simp only [bind_ok]
  rw [memcpy_ok _ _ _ _ _ (by omega) (by simp [stack_array_length]; omega)]
  simp only [bind_ok]
  rw [padded_buffer 16 length _ encrypted (by rw [stack_array_length]; omega),
    read_all _ _ hc, read_take n 24 hn, read_take k 32 hk]
  simp only [bind_ok]
  rw [hopen]

theorem nat_or_eq_zero (x y : Nat) : x ||| y = 0 ↔ x = 0 ∧ y = 0 := by
  constructor
  · intro h
    have ht : ∀ i, x.testBit i = false ∧ y.testBit i = false := by
      intro i
      have := congrArg (fun z => Nat.testBit z i) h
      simpa [Nat.testBit_or] using this
    exact ⟨Nat.eq_of_testBit_eq (fun i => by simp [(ht i).1]),
      Nat.eq_of_testBit_eq (fun i => by simp [(ht i).2])⟩
  · rintro ⟨rfl, rfl⟩
    rfl

theorem foldl_or_eq_zero (f : Nat → Nat) (is : List Nat) (d : Nat) :
    is.foldl (fun d i => d ||| f i) d = 0 ↔ d = 0 ∧ ∀ i ∈ is, f i = 0 := by
  induction is generalizing d with
  | nil => simp
  | cons a t ih =>
    rw [List.foldl_cons, ih, nat_or_eq_zero]
    simp only [List.mem_cons, forall_eq_or_imp]
    tauto

theorem foldl_or_lt (f : Nat → Nat) (is : List Nat) (d : Nat) (hd : d < 2 ^ 8)
    (hf : ∀ i, f i < 2 ^ 8) : is.foldl (fun d i => d ||| f i) d < 2 ^ 8 := by
  induction is generalizing d with
  | nil => exact hd
  | cons a t ih =>
    rw [List.foldl_cons]
    exact ih _ (Nat.or_lt_two_pow hd (hf a))

theorem getD_lt_of_isBytes (k : Bytes) (h : IsBytes k) (i : Nat) : k.getD i 0 < 2 ^ 8 := by
  by_cases hi : i < k.length
  · rw [List.getD_eq_getElem _ _ hi]
    exact h _ (List.getElem_mem _)
  · rw [List.getD_eq_default _ _ (by omega)]
    norm_num

/-- The arithmetic at the end of `crypto_verify_32`. -/
theorem verify_map (d : Nat) (hd : d < 2 ^ 8) :
    ((1 &&& (u32 (d + 2 ^ 32 - 1) >>> 8) : Nat) : Int) - 1 = if d = 0 then 0 else -1 := by
  by_cases h : d = 0
  · subst h
    rw [if_pos rfl]
    decide
  · rw [if_neg h]
    have h1 : u32 (d + 2 ^ 32 - 1) = d - 1 := by
      rw [u32]
      omega
    have h2 : (d - 1) >>> 8 = 0 := by
      rw [Nat.shiftRight_eq_div_pow]
      omega
    rw [h1, h2]
    rfl

theorem crypto_verify_32_eq (x y : Bytes) (hx : IsBytes x) (hy : IsBytes y) :
    crypto_verify_32 x y = if ∀ i ∈ List.range 32, x.getD i 0 = y.getD i 0 then 0 else -1 := by
  have hlt := foldl_or_lt (fun i => x.getD i 0 ^^^ y.getD i 0) (List.range 32) 0 (by norm_num)
    (fun i => Nat.xor_lt_two_pow (getD_lt_of_isBytes x hx i) (getD_lt_of_isBytes y hy i))
  have hz := foldl_or_eq_zero (fun i => x.getD i 0 ^^^ y.getD i 0) (List.range 32) 0
  simp only [Nat.xor_eq_zero, true_and] at hz
  rw [crypto_verify_32, verify_map _ hlt]
  by_cases h : ∀ i ∈ List.range 32, x.getD i 0 = y.getD i 0
  · rw [if_pos (hz.mpr h), if_pos h]
  · rw [if_neg (fun hh => h (hz.mp hh)), if_neg h]

theorem keys_eq_iff (x y : Bytes) (hx : x.length = 32) (hy : y.length = 32) :
    (∀ i ∈ List.range 32, x.getD i 0 = y.getD i 0) ↔ x = y := by
  constructor
  · intro h
    apply List.ext_getElem (by rw [hx, hy])
    intro i h1 h2
    have := h i (List.mem_range.mpr (by omega))
    rwa [List.getD_eq_getElem _ _ h1, List.getD_eq_getElem _ _ h2] at this
  · rintro rfl i _
    rfl

theorem handle_request_reject_recipient (E : Env) (spk ssk pk data rid packet : Bytes)
    (length : Nat) (h1 : 105 < length) (h2 : length ≤ E.MAX_CRYPTO_REQUEST_SIZE)
    (hpl : length ≤ packet.length) (hspk : 32 ≤ spk.length)
    (hd : (packet.drop 1).take 32 ≠ spk.take 32) :
    handle_request E spk ssk pk data rid packet length = .ok (-1, ⟨pk, data, rid⟩) := by
  have hg : ¬ (length ≤ 32 * 2 + 24 + 1 + 16 ∨ length > E.MAX_CRYPTO_REQUEST_SIZE) := by omega
  simp only [handle_request, crypto_box_PUBLICKEYBYTES, crypto_box_NONCEBYTES,
    crypto_box_MACBYTES]
  rw [if_neg hg, memcmp_ne_ok _ _ _ _ _ (by omega) (by omega)]
  simp only [bind_ok, List.drop_zero]
  rw [if_pos (by simpa using hd)]

theorem decrypt_payload_eq (E : Env) (ssk packet : Bytes) (length : Nat)
    (h1 : 105 < length) (h2 : length ≤ E.MAX_CRYPTO_REQUEST_SIZE) (hl16 : length < 2 ^ 16)
    (hpl : length ≤ packet.length) (hssk : 32 ≤ ssk.length) :
    decrypt_payload E ssk packet length
      = match E.crypto_box_open_afternm
          (List.replicate 16 0 ++ (packet.drop 89).take (length - 89))
          ((packet.drop 65).take 24)
          (E.crypto_box_beforenm ((packet.drop 33).take 32) (ssk.take 32)) with
        | none => .ok (-1, stack_array E E.MAX_CRYPTO_REQUEST_SIZE)
        | some m =>
          .ok ((length : Int) - 105,
            m.drop 32 ++ (stack_array E E.MAX_CRYPTO_REQUEST_SIZE).drop (length - 105)) := by
  have hk32 : ((packet.drop 33).take 32).length = 32 := by simp; omega
  have hn24 : ((packet.drop 65).take 24).length = 24 := by simp; omega
  rw [decrypt_payload, decrypt_data_eq E _ ssk _ _ _ (length - 89) (by omega) (by omega)
      (by simp; omega) (Nat.le_of_eq hk32.symm) hssk (Nat.le_of_eq hn24.symm),
    take_all _ _ hk32, take_all _ _ hn24]
  cases ho : E.crypto_box_open_afternm
      (List.replicate 16 0 ++ (packet.drop 89).take (length - 89))
      ((packet.drop 65).take 24)
      (E.crypto_box_beforenm ((packet.drop 33).take 32) (ssk.take 32)) with
  | none => rfl
  | some m =>
    simp only []
    rw [if_neg (by rw [stack_array_length]; omega),
      show length - 89 - 16 = length - 105 by omega,
      show ((length - 89 : Nat) : Int) - 16 = (length : Int) - 105 by omega]

theorem store_inv (p q : Bytes) (i v : Nat) (h : store p i v = .ok q) :
    i < p.length ∧ q = p.set i (v % 256) := by
  unfold store at h
  split at h
  · next hi => exact ⟨hi, (Except.ok.inj h).symm⟩
  · exact Except.noConfusion h

theorem memcpy_inv (dst src q : Bytes) (doff soff n : Nat)
    (h : memcpy dst doff src soff n = .ok q) :
    soff + n ≤ src.length ∧ doff + n ≤ dst.length ∧
      q = dst.take doff ++ (src.drop soff).take n ++ dst.drop (doff + n) := by
  unfold memcpy at h
  split at h
  · exact Except.noConfusion h
  · split at h
    · exact Except.noConfusion h
    · exact ⟨by omega, by omega, (Except.ok.inj h).symm⟩

/-- When the packet would not fit, `create_request` either returns -1 from its size
check or, when the sum in the check wraps, leaves the scratch buffer. -/
theorem create_request_unfit (E : Env) (rnd spk ssk packet rpk data : Bytes)
    (length rid : Nat) (hmax : E.MAX_CRYPTO_REQUEST_SIZE < 2 ^ 31)
    (hbig : E.MAX_CRYPTO_REQUEST_SIZE < length + 106) (hl2 : length < 2 ^ 32)
    (hdata : length ≤ data.length) :
    create_request E rnd spk ssk packet rpk data length rid = .ok (-1, packet) ∨
      ∃ e, create_request E rnd spk ssk packet rpk data length rid = .error e := by
  simp only [create_request, crypto_box_PUBLICKEYBYTES, crypto_box_NONCEBYTES,
    crypto_box_MACBYTES]
  split
  · exact Or.inl rfl
  · next hg =>
    rw [u32] at hg
    rw [memcpy, if_neg (by omega), if_pos (by rw [stack_array_length]; omega)]
    exact Or.inr ⟨_, rfl⟩

theorem create_request_reject_size (E : Env) (rnd spk ssk packet rpk data : Bytes)
    (length rid : Nat) (hl : length + 106 < 2 ^ 32)
    (hbig : E.MAX_CRYPTO_REQUEST_SIZE < length + 106) :
    create_request E rnd spk ssk packet rpk data length rid = .ok (-1, packet) := by
  have hg : E.MAX_CRYPTO_REQUEST_SIZE < u32 (length + 1 + 32 * 2 + 24 + 1 + 16) := by
    rw [u32_small _ (by omega)]
    omega
  simp only [create_request, crypto_box_PUBLICKEYBYTES, crypto_box_NONCEBYTES,
    crypto_box_MACBYTES]
  rw [if_pos hg]

/-! ## Main theorems -/

/-- C1. For every shared key, nonce and plaintext `P` of length above 0 whose padded
lengths do not overflow, if the box primitive succeeds on the zero-padded `P` and the
box-open primitive inverts it on the zero-padded ciphertext, then
`decrypt_data_symmetric` on the output of `encrypt_data_symmetric` succeeds and returns
exactly `P` with length `|P|`. -/
theorem decrypt_encrypt_symmetric (E : Env) (k n P encrypted plain c : Bytes)
    (hk : k.length = 32) (hn : n.length = 24) (hP0 : 0 < P.length)
    (hPs : P.length + 16 < 2 ^ 31) (henc : P.length + 16 ≤ encrypted.length)
    (hplain : P.length ≤ plain.length)
    (hbox : E.crypto_box_afternm (List.replicate 32 0 ++ P) n k = some c)
    (hopen : E.crypto_box_open_afternm (List.replicate 16 0 ++ c.drop 16) n k
      = some (List.replicate 32 0 ++ P)) :
    encrypt_data_symmetric E k n P P.length encrypted
        = .ok ((P.length : Int) + 16, c.drop 16 ++ encrypted.drop (P.length + 16)) ∧
      decrypt_data_symmetric E k n (c.drop 16 ++ encrypted.drop (P.length + 16))
          (P.length + 16) plain
        = .ok ((P.length : Int), P ++ plain.drop P.length) := by
  have hcl : c.length = P.length + 32 := by
    rw [E.afternm_length _ _ _ _ hbox]
    simp
  refine ⟨?_, ?_⟩
  · rw [encrypt_data_symmetric_eq E k n P encrypted P.length hP0 hPs (Nat.le_refl _)
      (Nat.le_of_eq hk.symm) (Nat.le_of_eq hn.symm), take_all P _ rfl, take_all n 24 hn,
      take_all k 32 hk, hbox]
    simp only []
    rw [if_neg (by omega)]
  · rw [decrypt_data_symmetric_eq E k n _ plain (P.length + 16) (by omega) (by omega)
      (by simp [hcl]) (Nat.le_of_eq hk.symm) (Nat.le_of_eq hn.symm),
      List.take_left' (by simp [hcl]), take_all n 24 hn, take_all k 32 hk, hopen]
    simp only []
    rw [if_neg (by omega), List.drop_left' (by simp)]
    rw [Nat.add_sub_cancel, Nat.cast_add, Nat.cast_ofNat, add_sub_cancel_right]

theorem decrypt_encrypt_symmetric_witness :
    encrypt_data_symmetric identity_box_env (List.replicate 32 1) (List.replicate 24 2)
        [5, 6, 7] [5, 6, 7].length (List.replicate 19 9)
        = .ok (([5, 6, 7].length : Int) + 16,
            (List.replicate 32 0 ++ [5, 6, 7]).drop 16
              ++ (List.replicate 19 9).drop ([5, 6, 7].length + 16)) ∧
      decrypt_data_symmetric identity_box_env (List.replicate 32 1) (List.replicate 24 2)
        ((List.replicate 32 0 ++ [5, 6, 7]).drop 16
          ++ (List.replicate 19 9).drop ([5, 6, 7].length + 16))
        ([5, 6, 7].length + 16) (List.replicate 3 9)
        = .ok (([5, 6, 7].length : Int),
            [5, 6, 7] ++ (List.replicate 3 9).drop [5, 6, 7].length) :=
  decrypt_encrypt_symmetric identity_box_env (List.replicate 32 1) (List.replicate 24 2)
    [5, 6, 7] (List.replicate 19 9) (List.replicate 3 9) (List.replicate 32 0 ++ [5, 6, 7])
    (by decide) (by decide) (by decide) (by decide) (by decide) (by decide) (by decide)
    (by decide)

/-- C2. For key pairs `A` and `B` whose precomputed shared keys agree, every request id
and every data of length at most `MAX_CRYPTO_REQUEST_SIZE - 106`, `handle_request` with
`B`'s keys on the packet of `create_request(A_pub, A_sec, B_pub, data, id)` succeeds,
returns the length of the data and outputs the sender key `A_pub`, the request id and
the bytes of the data; the box primitive is taken to succeed and the box-open primitive
to invert it. -/
theorem handle_request_create_request (E : Env)
    (rnd A_pub A_sec B_pub B_sec packet data pk_out data_out id_out c : Bytes)
    (request_id : Nat)
    (hfit : data.length + 106 ≤ E.MAX_CRYPTO_REQUEST_SIZE)
    (hmax : E.MAX_CRYPTO_REQUEST_SIZE < 2 ^ 16)
    (hApub : A_pub.length = 32) (hAsec : A_sec.length = 32) (hBpub : B_pub.length = 32)
    (hBsec : B_sec.length = 32) (hrnd : rnd.length = 24)
    (hpacket : packet.length = E.MAX_CRYPTO_REQUEST_SIZE) (hid : request_id < 256)
    (hpk_out : pk_out.length = 32) (hdata_out : data.length ≤ data_out.length)
    (hid_out : id_out.length = 1)
    (hshared : E.crypto_box_beforenm B_pub A_sec = E.crypto_box_beforenm A_pub B_sec)
    (hbox : E.crypto_box_afternm (List.replicate 32 0 ++ request_id :: data) rnd
      (E.crypto_box_beforenm B_pub A_sec) = some c)
    (hopen : E.crypto_box_open_afternm (List.replicate 16 0 ++ c.drop 16) rnd
      (E.crypto_box_beforenm B_pub A_sec) = some (List.replicate 32 0 ++ request_id :: data)) :
    create_request E rnd A_pub A_sec packet B_pub data data.length request_id
        = .ok ((data.length : Int) + 106,
            [E.NET_PACKET_CRYPTO % 256] ++ (B_pub ++ (A_pub ++ (rnd ++ (c.drop 16
              ++ packet.drop (data.length + 106)))))) ∧
      handle_request E B_pub B_sec pk_out data_out id_out
          ([E.NET_PACKET_CRYPTO % 256] ++ (B_pub ++ (A_pub ++ (rnd ++ (c.drop 16
            ++ packet.drop (data.length + 106))))))
          (data.length + 106)
        = .ok ((data.length : Int),
            ⟨A_pub, data ++ data_out.drop data.length, [request_id]⟩) := by
  have hrid : request_id % 256 = request_id := Nat.mod_eq_of_lt hid
  have hcl : c.length = data.length + 33 := by
    rw [E.afternm_length _ _ _ _ hbox]
    simp
  have hc16 : (c.drop 16).length = data.length + 17 := by
    rw [List.length_drop, hcl]
    omega
  obtain ⟨s1, s2, s3, s4⟩ := packet_segments (E.NET_PACKET_CRYPTO % 256) B_pub A_pub rnd
    (c.drop 16) (packet.drop (data.length + 106)) (data.length + 17) hBpub hApub hrnd hc16
  refine ⟨?_, ?_⟩
  · rw [create_request_eq E rnd A_pub A_sec packet B_pub data data.length request_id hfit hmax
      (Nat.le_refl _) (Nat.le_of_eq hrnd.symm) (Nat.le_of_eq hApub.symm)
      (Nat.le_of_eq hAsec.symm) (Nat.le_of_eq hBpub.symm) (by omega),
      take_all data _ rfl, take_all rnd 24 hrnd, take_all B_pub 32 hBpub,
      take_all A_sec 32 hAsec, take_all A_pub 32 hApub, hrid, hbox]
  · rw [handle_request_checked E B_pub B_sec pk_out data_out id_out _ (data.length + 106)
      (by omega) hfit (by omega) (by simp [hBpub, hApub, hrnd, hc16]; omega)
      (Nat.le_of_eq hBpub.symm) (Nat.le_of_eq hBsec.symm) (Nat.le_of_eq hpk_out.symm),
      show data.length + 106 - 89 = data.length + 17 by omega, s1, s2, s3, s4,
      take_all B_pub 32 hBpub, take_all B_sec 32 hBsec, if_neg (by simp), ← hshared, hopen]
    simp only []
    have hm32 : (List.replicate 32 0 ++ request_id :: data).drop 32 = request_id :: data :=
      List.drop_left' (by simp)
    have hget : (List.replicate 32 0 ++ request_id :: data).getD 32 0 = request_id := by
      have := getD_append_cons (List.replicate 32 0) data request_id 0
      rwa [List.length_replicate] at this
    rw [hget, hm32, store_ok _ _ _ (by omega), hrid]
    simp only [bind_ok]
    rw [memcpy_ok _ _ _ _ _ (by simp [stack_array_length]; omega) (by omega)]
    simp only [bind_ok, List.take_zero, List.nil_append, Nat.zero_add, List.cons_append,
      List.drop_succ_cons, List.drop_zero]
    rw [show data.length + 106 - 106 = data.length by omega, List.take_left' rfl,
      drop_all pk_out 32 hpk_out, List.append_nil]
    have hset : id_out.set 0 request_id = [request_id] := by
      match id_out, hid_out with
      | [x], _ => rfl
    rw [hset]
    congr 2
    push_cast
    ring

theorem handle_request_create_request_witness :
    create_request identity_box_env (List.replicate 24 4) (List.replicate 32 1)
        (List.replicate 32 2) (List.replicate 1024 0) (List.replicate 32 3) [5, 6, 7]
        [5, 6, 7].length 77
        = .ok (([5, 6, 7].length : Int) + 106,
            [identity_box_env.NET_PACKET_CRYPTO % 256] ++ (List.replicate 32 3
              ++ (List.replicate 32 1 ++ (List.replicate 24 4
              ++ ((List.replicate 32 0 ++ [77, 5, 6, 7]).drop 16
              ++ (List.replicate 1024 0).drop ([5, 6, 7].length + 106)))))) ∧
      handle_request identity_box_env (List.replicate 32 3) (List.replicate 32 8)
        (List.replicate 32 0) (List.replicate 3 0) [0]
        ([identity_box_env.NET_PACKET_CRYPTO % 256] ++ (List.replicate 32 3
          ++ (List.replicate 32 1 ++ (List.replicate 24 4
          ++ ((List.replicate 32 0 ++ [77, 5, 6, 7]).drop 16
          ++ (List.replicate 1024 0).drop ([5, 6, 7].length + 106))))))
        ([5, 6, 7].length + 106)
        = .ok (([5, 6, 7].length : Int),
            ⟨List.replicate 32 1, [5, 6, 7] ++ (List.replicate 3 0).drop [5, 6, 7].length,
              [77]⟩) :=
  handle_request_create_request identity_box_env (List.replicate 24 4) (List.replicate 32 1)
    (List.replicate 32 2) (List.replicate 32 3) (List.replicate 32 8) (List.replicate 1024 0)
    [5, 6, 7] (List.replicate 32 0) (List.replicate 3 0) [0]
    (List.replicate 32 0 ++ [77, 5, 6, 7]) 77
    (by decide) (by decide) (by decide) (by decide) (by decide) (by decide) (by decide)
    (List.length_replicate 1024 0) (by decide) (by decide) (by decide) (by decide) rfl
    (by decide) (by decide)

/-- C3. The size check of `create_request` adds in `uint32_t`: for a length argument
within 106 of `2^32` the sum wraps, the check does not return -1, and
`memcpy(temp + 1, data, length)` writes past the end of the scratch buffer of
`MAX_CRYPTO_REQUEST_SIZE` bytes. -/
theorem create_request_length_wraps (E : Env) (rnd spk ssk packet rpk data : Bytes)
    (length rid : Nat) (hmax1 : 105 ≤ E.MAX_CRYPTO_REQUEST_SIZE)
    (hmax2 : E.MAX_CRYPTO_REQUEST_SIZE < 2 ^ 31) (hl1 : 2 ^ 32 - 106 ≤ length)
    (hl2 : length < 2 ^ 32) (hdata : data.length = length) :
    E.MAX_CRYPTO_REQUEST_SIZE < length + 106 ∧
      create_request E rnd spk ssk packet rpk data length rid
        = .error .write_out_of_bounds := by
  refine ⟨by omega, ?_⟩
  have hg : ¬ E.MAX_CRYPTO_REQUEST_SIZE < u32 (length + 1 + 32 * 2 + 24 + 1 + 16) := by
    rw [u32]
    omega
  simp only [create_request, crypto_box_PUBLICKEYBYTES, crypto_box_NONCEBYTES,
    crypto_box_MACBYTES]
  rw [if_neg hg, memcpy, if_neg (by omega), if_pos (by rw [stack_array_length]; omega)]
  rfl

theorem create_request_length_wraps_witness :
    identity_box_env.MAX_CRYPTO_REQUEST_SIZE < 4294967190 + 106 ∧
      create_request identity_box_env (List.replicate 24 4) (List.replicate 32 1)
        (List.replicate 32 2) (List.replicate 1024 0) (List.replicate 32 3)
        (List.replicate 4294967190 0) 4294967190 77 = .error .write_out_of_bounds :=
  create_request_length_wraps identity_box_env (List.replicate 24 4) (List.replicate 32 1)
    (List.replicate 32 2) (List.replicate 1024 0) (List.replicate 32 3)
    (List.replicate 4294967190 0) 4294967190 77 (by decide) (by decide) (by decide) (by decide)
    (List.length_replicate 4294967190 0)

/-- C4. For every packet and key pair, `handle_request` returns -1 if bytes 1..32 of
the packet differ from `self_public_key`, or the length is at most 105 or above
`MAX_CRYPTO_REQUEST_SIZE`, or decryption of the payload fails; it returns a non-negative
length only when none of these holds. -/
theorem handle_request_rejects (E : Env) (spk ssk pk data rid packet : Bytes) (length : Nat)
    (hl16 : length < 2 ^ 16) (hpl : length ≤ packet.length) (hspk : spk.length = 32)
    (hssk : ssk.length = 32) (hpk : 32 ≤ pk.length) :
    (((packet.drop 1).take 32 ≠ spk ∨ length ≤ 105 ∨ E.MAX_CRYPTO_REQUEST_SIZE < length ∨
        payload_decryption_fails E ssk packet length = true) →
      Except.map Prod.fst (handle_request E spk ssk pk data rid packet length) = .ok (-1)) ∧
    (∀ r out, handle_request E spk ssk pk data rid packet length = .ok (r, out) → 0 ≤ r →
      ¬ ((packet.drop 1).take 32 ≠ spk ∨ length ≤ 105 ∨ E.MAX_CRYPTO_REQUEST_SIZE < length ∨
        payload_decryption_fails E ssk packet length = true)) := by
  have key : ((packet.drop 1).take 32 ≠ spk ∨ length ≤ 105 ∨ E.MAX_CRYPTO_REQUEST_SIZE < length ∨
        payload_decryption_fails E ssk packet length = true) →
      ∃ out, handle_request E spk ssk pk data rid packet length = .ok (-1, out) := by
    intro hbad
    by_cases hlen : length ≤ 105 ∨ E.MAX_CRYPTO_REQUEST_SIZE < length
    · exact ⟨_, handle_request_reject_length E spk ssk pk data rid packet length hlen⟩
    · have h1 : 105 < length := by omega
      have h2 : length ≤ E.MAX_CRYPTO_REQUEST_SIZE := by omega
      rw [handle_request_checked E spk ssk pk data rid packet length h1 h2 hl16 hpl
        (Nat.le_of_eq hspk.symm) (Nat.le_of_eq hssk.symm) hpk, take_all spk 32 hspk]
      by_cases hd : (packet.drop 1).take 32 ≠ spk
      · exact ⟨_, if_pos hd⟩
      · rw [if_neg hd]
        have hf : payload_decryption_fails E ssk packet length = true := by
          rcases hbad with h | h | h | h
          · exact absurd h hd
          · omega
          · omega
          · exact h
        rw [payload_decryption_fails_iff E ssk packet length h1 h2 hl16 hpl
          (Nat.le_of_eq hssk.symm)] at hf
        rw [hf]
        exact ⟨_, rfl⟩
  refine ⟨fun hbad => ?_, ?_⟩
  · obtain ⟨out1, h⟩ := key hbad
    rw [h]
    rfl
  intro r out hr hr0 hbad
  obtain ⟨out1, h⟩ := key hbad
  rw [h] at hr
  have : (-1 : Int) = r := by
    injection hr with hr
    exact congrArg Prod.fst hr
  omega

theorem handle_request_rejects_witness :
    Except.map Prod.fst (handle_request identity_box_env (List.replicate 32 1)
        (List.replicate 32 2) (List.replicate 32 0) (List.replicate 8 0) [0]
        (32 :: List.replicate 32 1 ++ List.replicate 32 3 ++ List.replicate 24 4
          ++ List.replicate 16 9 ++ [77, 5]) 107) = .ok (-1) :=
  (handle_request_rejects identity_box_env (List.replicate 32 1) (List.replicate 32 2)
    (List.replicate 32 0) (List.replicate 8 0) [0]
    (32 :: List.replicate 32 1 ++ List.replicate 32 3 ++ List.replicate 24 4
      ++ List.replicate 16 9 ++ [77, 5]) 107 (by decide) (by decide) (by decide) (by decide)
    (by decide)).1 (Or.inr (Or.inr (Or.inr (by decide))))

/-- C5. For every 24-byte nonce, `increment_nonce` leaves the big-endian encoding of
`(N + 1) mod 2^192`, where `N` is the value of the 24 bytes read as one big-endian
integer. -/
theorem increment_nonce_big_endian (n : Bytes) (h : IsNonce n) :
    increment_nonce n = be_encode 24 ((be_value n + 1) % 2 ^ 192) :=
  increment_nonce_eq n h

theorem increment_nonce_big_endian_witness :
    IsNonce (List.replicate 22 7 ++ [255, 255]) ∧
      increment_nonce (List.replicate 22 7 ++ [255, 255])
        = be_encode 24 ((be_value (List.replicate 22 7 ++ [255, 255]) + 1) % 2 ^ 192) :=
  ⟨by decide, increment_nonce_big_endian _ (by decide)⟩

/-- C6. For every 24-byte nonce and every 32-bit `num`, on either byte order of the
host, `increment_nonce_number` replaces the trailing 4 bytes by the big-endian encoding
of `(t + num) mod 2^32`; it leaves the leading 20 bytes unchanged when `t + num < 2^32`
and otherwise adds 1 modulo `2^160` to them; the whole nonce becomes
`(N + num) mod 2^192`. -/
theorem increment_nonce_number_spec (le : Bool) (n : Bytes) (num : Nat) (h : IsNonce n)
    (hnum : num < 2 ^ 32) :
    (increment_nonce_number le n num).drop 20
        = be_encode 4 ((be_value (n.drop 20) + num) % 2 ^ 32) ∧
      (be_value (n.drop 20) + num < 2 ^ 32 →
        (increment_nonce_number le n num).take 20 = n.take 20) ∧
      (2 ^ 32 ≤ be_value (n.drop 20) + num →
        (increment_nonce_number le n num).take 20
          = be_encode 20 ((be_value (n.take 20) + 1) % 2 ^ 160)) ∧
      increment_nonce_number le n num = be_encode 24 ((be_value n + num) % 2 ^ 192) := by
  have hp := increment_nonce_number_parts le n num h hnum
  have htl := (isNonce_take n h).1
  refine ⟨?_, ?_, ?_, increment_nonce_number_eq le n num h hnum⟩
  · rw [hp]
    split
    · rw [List.drop_left' htl]
    · rw [List.drop_left' (be_encode_length _ _)]
  · intro hc
    rw [hp, if_pos hc, List.take_left' htl]
  · intro hc
    rw [hp, if_neg (by omega), List.take_left' (be_encode_length _ _)]

theorem increment_nonce_number_spec_witness :
    IsNonce (List.replicate 20 255 ++ [255, 255, 255, 254]) ∧ 3 < 2 ^ 32 ∧
      increment_nonce_number true (List.replicate 20 255 ++ [255, 255, 255, 254]) 3
        = be_encode 24
            ((be_value (List.replicate 20 255 ++ [255, 255, 255, 254]) + 3) % 2 ^ 192) :=
  ⟨by decide, by decide,
    (increment_nonce_number_spec true _ 3 (by decide) (by decide)).2.2.2⟩

/-- C7. For every 24-byte nonce and all 32-bit `a`, `b` with `a + b < 2^32`,
`increment_nonce_number` with `a` and then with `b` gives the same nonce as one
application with `a + b`. -/
theorem increment_nonce_number_add (le : Bool) (n : Bytes) (a b : Nat) (h : IsNonce n)
    (hab : a + b < 2 ^ 32) :
    increment_nonce_number le (increment_nonce_number le n a) b
      = increment_nonce_number le n (a + b) := by
  have ha : a < 2 ^ 32 := by omega
  have hb : b < 2 ^ 32 := by omega
  rw [increment_nonce_number_eq le n a h ha,
    increment_nonce_number_eq le _ b (isNonce_be_encode _) hb,
    increment_nonce_number_eq le n (a + b) h hab, be_value_encode]
  congr 1
  norm_num
  omega

theorem increment_nonce_number_add_witness :
    IsNonce (List.replicate 20 255 ++ [255, 255, 255, 254]) ∧ 1 + 2 < 2 ^ 32 ∧
      increment_nonce_number true
          (increment_nonce_number true (List.replicate 20 255 ++ [255, 255, 255, 254]) 1) 2
        = increment_nonce_number true (List.replicate 20 255 ++ [255, 255, 255, 254]) (1 + 2) :=
  ⟨by decide, by decide, increment_nonce_number_add true _ 1 2 (by decide) (by decide)⟩

/-- C8. For every 24-byte nonce, `increment_nonce_number` with 0 leaves all 24 bytes
unchanged. -/
theorem increment_nonce_number_zero (le : Bool) (n : Bytes) (h : IsNonce n) :
    increment_nonce_number le n 0 = n := by
  rw [increment_nonce_number_eq le n 0 h (by norm_num), Nat.add_zero,
    Nat.mod_eq_of_lt (be_value_nonce_lt n h), be_encode_value_nonce n h]

theorem increment_nonce_number_zero_witness :
    IsNonce (List.replicate 20 9 ++ [1, 2, 3, 4]) ∧
      increment_nonce_number false (List.replicate 20 9 ++ [1, 2, 3, 4]) 0
        = List.replicate 20 9 ++ [1, 2, 3, 4] :=
  ⟨by decide, increment_nonce_number_zero false _ (by decide)⟩

/-- C9. For every 24-byte nonce, one application of `increment_nonce` gives a
different nonce, and the nonce of 24 bytes `0xFF` wraps to 24 zero bytes. -/
theorem increment_nonce_ne (n : Bytes) (h : IsNonce n) :
    increment_nonce n ≠ n ∧
      increment_nonce (List.replicate 24 255) = List.replicate 24 0 := by
  refine ⟨?_, by decide⟩
  intro he
  have hlt := be_value_nonce_lt n h
  rw [increment_nonce_eq n h] at he
  have := congrArg be_value he
  rw [be_value_encode] at this
  norm_num at this hlt
  omega

theorem increment_nonce_ne_witness :
    IsNonce (List.replicate 24 255) ∧ increment_nonce (List.replicate 24 255)
      ≠ List.replicate 24 255 :=
  ⟨by decide, (increment_nonce_ne _ (by decide)).1⟩

/-- C10. For every 24-byte nonce, `2^192` applications of `increment_nonce` return the
nonce, and `k` applications with `0 < k < 2^192` give a different nonce. -/
theorem increment_nonce_period (n : Bytes) (h : IsNonce n) :
    increment_nonce^[2 ^ 192] n = n ∧
      ∀ k, 0 < k → k < 2 ^ 192 → increment_nonce^[k] n ≠ n := by
  have hlt := be_value_nonce_lt n h
  constructor
  · rw [iterate_increment_nonce n h, Nat.add_mod_right, Nat.mod_eq_of_lt hlt,
      be_encode_value_nonce n h]
  · intro k hk0 hk he
    rw [iterate_increment_nonce n h] at he
    have := congrArg be_value he
    rw [be_value_encode] at this
    norm_num at this hlt hk
    omega

theorem increment_nonce_period_witness :
    IsNonce (List.replicate 24 0) ∧ increment_nonce^[2 ^ 192] (List.replicate 24 0)
      = List.replicate 24 0 :=
  ⟨by decide, (increment_nonce_period _ (by decide)).1⟩

/-- C11 (amended). The function `encrypt_data_symmetric` returns -1 and leaves the output
buffer as it was when the plaintext length is 0; for a plaintext length above 0 with
`length + 16 < 2^31` on which the box primitive succeeds it returns `length + 16`, and
the output is the primitive's output without its 16 leading padding bytes. -/
theorem encrypt_data_symmetric_returns (E : Env) (k n plain encrypted c : Bytes)
    (length : Nat) (hk : k.length = 32) (hn : n.length = 24) (hp : length ≤ plain.length)
    (he : length + 16 ≤ encrypted.length) :
    (length = 0 → encrypt_data_symmetric E k n plain length encrypted = .ok (-1, encrypted)) ∧
    (0 < length → length + 16 < 2 ^ 31 →
      E.crypto_box_afternm (List.replicate 32 0 ++ plain.take length) n k = some c →
      encrypt_data_symmetric E k n plain length encrypted
          = .ok ((length : Int) + 16, c.drop 16 ++ encrypted.drop (length + 16)) ∧
        (c.drop 16).length = length + 16) := by
  constructor
  · intro h
    rw [encrypt_data_symmetric, if_pos h]
  · intro h0 hlen hbox
    have hcl : c.length = length + 32 := by
      rw [E.afternm_length _ _ _ _ hbox, List.length_append, List.length_replicate,
        List.length_take, Nat.min_eq_left hp]
      omega
    constructor
    · rw [encrypt_data_symmetric_eq E k n plain encrypted length h0 hlen hp
        (Nat.le_of_eq hk.symm) (Nat.le_of_eq hn.symm), take_all n 24 hn, take_all k 32 hk, hbox]
      simp only []
      rw [if_neg (by omega)]
    · rw [List.length_drop, hcl]
      omega

theorem encrypt_data_symmetric_returns_witness :
    encrypt_data_symmetric identity_box_env (List.replicate 32 1) (List.replicate 24 2)
        [5, 6, 7] 3 (List.replicate 19 9)
        = .ok (((3 : Nat) : Int) + 16,
            (List.replicate 32 0 ++ [5, 6, 7]).drop 16 ++ (List.replicate 19 9).drop (3 + 16)) ∧
      ((List.replicate 32 0 ++ [5, 6, 7]).drop 16).length = 3 + 16 :=
  (encrypt_data_symmetric_returns identity_box_env (List.replicate 32 1) (List.replicate 24 2)
    [5, 6, 7] (List.replicate 19 9) (List.replicate 32 0 ++ [5, 6, 7]) 3 (by decide) (by decide)
    (by decide) (by decide)).2 (by decide) (by decide) (by decide)

/-- C11 as stated fails: for a plaintext of `2^31 - 16` bytes, on which the box succeeds,
`encrypt_data_symmetric` returns `-2^31` and not `length + 16`. -/
theorem encrypt_data_symmetric_returns_counterexample :
    identity_box_env.crypto_box_afternm
        (List.replicate 32 0 ++ List.replicate 2147483632 0) (List.replicate 24 2)
        (List.replicate 32 1)
        = some (List.replicate 32 0 ++ List.replicate 2147483632 0) ∧
      Except.map Prod.fst (encrypt_data_symmetric identity_box_env (List.replicate 32 1)
        (List.replicate 24 2) (List.replicate 2147483632 0) 2147483632
        (List.replicate 2147483648 0)) = .ok (-2147483648) ∧
      (-2147483648 : Int) ≠ ((2147483632 : Nat) : Int) + 16 :=
  ⟨rfl, encrypt_data_symmetric_large identity_box_env (List.replicate 32 1)
    (List.replicate 24 2) (List.replicate 2147483632 0) (List.replicate 2147483648 0)
    (List.replicate 32 0 ++ List.replicate 2147483632 0) (List.length_replicate _ _)
    (List.length_replicate _ _) (List.length_replicate _ _) (List.length_replicate _ _) rfl,
    by decide⟩

/-- C12 (amended). The function `decrypt_data_symmetric` returns -1 and leaves the
plaintext buffer as it was when the ciphertext length is at most 16 or the box-open
primitive reports failure; otherwise, for `length - 16 < 2^31`, it returns `length - 16`,
which is at least 1. -/
theorem decrypt_data_symmetric_returns (E : Env) (k n encrypted plain m : Bytes)
    (length : Nat) (hk : k.length = 32) (hn : n.length = 24) (hp : length ≤ encrypted.length)
    (hpl : length - 16 ≤ plain.length) :
    (length ≤ 16 → decrypt_data_symmetric E k n encrypted length plain = .ok (-1, plain)) ∧
    (16 < length → length + 16 < 2 ^ 32 →
      E.crypto_box_open_afternm (List.replicate 16 0 ++ encrypted.take length) n k = none →
      decrypt_data_symmetric E k n encrypted length plain = .ok (-1, plain)) ∧
    (16 < length → length - 16 < 2 ^ 31 →
      E.crypto_box_open_afternm (List.replicate 16 0 ++ encrypted.take length) n k = some m →
      decrypt_data_symmetric E k n encrypted length plain
          = .ok ((length : Int) - 16, m.drop 32 ++ plain.drop (length - 16)) ∧
        (1 : Int) ≤ (length : Int) - 16) := by
  refine ⟨?_, ?_, ?_⟩
  · intro h
    have h1 : length ≤ crypto_box_BOXZEROBYTES := h
    rw [decrypt_data_symmetric, if_pos h1]
  · intro h0 hlen hopen
    exact decrypt_data_symmetric_open_fails E k n encrypted plain length h0 hlen hp
      (Nat.le_of_eq hk.symm) (Nat.le_of_eq hn.symm)
      (by rw [take_all n 24 hn, take_all k 32 hk]; exact hopen)
  · intro h0 hlen hopen
    constructor
    · rw [decrypt_data_symmetric_wide E k n encrypted plain length h0 (by omega) hp
        (Nat.le_of_eq hk.symm) (Nat.le_of_eq hn.symm), take_all n 24 hn, take_all k 32 hk, hopen]
      simp only []
      rw [if_neg (by omega), to_int_small _ hlen]
      congr 2
      omega
    · omega

theorem decrypt_data_symmetric_returns_witness :
    decrypt_data_symmetric identity_box_env (List.replicate 32 1) (List.replicate 24 2)
        (List.replicate 16 0 ++ [5, 6, 7]) 19 (List.replicate 3 9)
        = .ok (((19 : Nat) : Int) - 16,
            (List.replicate 32 0 ++ [5, 6, 7]).drop 32 ++ (List.replicate 3 9).drop (19 - 16)) ∧
      (1 : Int) ≤ ((19 : Nat) : Int) - 16 :=
  (decrypt_data_symmetric_returns identity_box_env (List.replicate 32 1) (List.replicate 24 2)
    (List.replicate 16 0 ++ [5, 6, 7]) (List.replicate 3 9) (List.replicate 32 0 ++ [5, 6, 7]) 19
    (by decide) (by decide) (by decide) (by decide)).2.2 (by decide) (by decide) (by decide)

/-- C12 as stated fails: for a ciphertext of `2^31 + 16` bytes that the box-open
primitive accepts, `decrypt_data_symmetric` returns `-2^31`, which is neither
`length - 16` nor at least 1. -/
theorem decrypt_data_symmetric_returns_counterexample :
    identity_box_env.crypto_box_open_afternm
        (List.replicate 16 0 ++ List.replicate 2147483664 0) (List.replicate 24 2)
        (List.replicate 32 1)
        = some (List.replicate 16 0 ++ List.replicate 2147483664 0) ∧
      Except.map Prod.fst (decrypt_data_symmetric identity_box_env (List.replicate 32 1)
        (List.replicate 24 2) (List.replicate 2147483664 0) 2147483664
        (List.replicate 2147483648 0)) = .ok (-2147483648) ∧
      (-2147483648 : Int) ≠ ((2147483664 : Nat) : Int) - 16 ∧
      ¬ ((1 : Int) ≤ -2147483648) :=
  ⟨identity_box_open_zeros 2147483664 (by norm_num) _ _,
    decrypt_data_symmetric_large identity_box_env (List.replicate 32 1)
      (List.replicate 24 2) (List.replicate 2147483664 0) (List.replicate 2147483648 0)
      (List.replicate 16 0 ++ List.replicate 2147483664 0) (List.length_replicate _ _)
      (List.length_replicate _ _) (List.length_replicate _ _) (List.length_replicate _ _)
      (identity_box_open_zeros 2147483664 (by norm_num) _ _),
    by decide, by decide⟩

/-- C13. For every successful `create_request` with data of length `len`, the value
returned is `len + 106` and the packet is: byte 0 `NET_PACKET_CRYPTO`, bytes 1..32
`recv_public_key`, bytes 33..64 `send_public_key`, bytes 65..88 the generated nonce,
and from byte 89 the `len + 17` bytes that `encrypt_data` produces for
`request_id || data` under that nonce. -/
theorem create_request_layout (E : Env) (rnd spk ssk packet rpk data p : Bytes)
    (length rid : Nat) (r : Int)
    (hmax : E.MAX_CRYPTO_REQUEST_SIZE < 2 ^ 16) (hnet : E.NET_PACKET_CRYPTO < 256)
    (hl : length < 2 ^ 32) (hrid : rid < 256) (hdata : data.length = length)
    (hrnd : rnd.length = 24) (hspk : spk.length = 32) (hssk : ssk.length = 32)
    (hrpk : rpk.length = 32) (hpacket : packet.length = E.MAX_CRYPTO_REQUEST_SIZE)
    (hok : create_request E rnd spk ssk packet rpk data length rid = .ok (r, p))
    (hr : r ≠ -1) :
    r = (length : Int) + 106 ∧ p.take 1 = [E.NET_PACKET_CRYPTO] ∧
      (p.drop 1).take 32 = rpk ∧ (p.drop 33).take 32 = spk ∧ (p.drop 65).take 24 = rnd ∧
      ((p.drop 89).take (length + 17)).length = length + 17 ∧
      encrypt_data E rpk ssk rnd (rid :: data) (length + 1) (List.replicate (length + 17) 0)
        = .ok ((length : Int) + 17, (p.drop 89).take (length + 17)) := by
  have hfit : length + 106 ≤ E.MAX_CRYPTO_REQUEST_SIZE := by
    by_contra hc
    rcases create_request_unfit E rnd spk ssk packet rpk data length rid (by omega) (by omega)
      hl (Nat.le_of_eq hdata.symm) with h | ⟨e, h⟩
    · rw [h] at hok
      exact hr (congrArg Prod.fst (Except.ok.inj hok)).symm
    · rw [h] at hok
      exact Except.noConfusion hok
  rw [create_request_eq E rnd spk ssk packet rpk data length rid hfit hmax
    (Nat.le_of_eq hdata.symm) (Nat.le_of_eq hrnd.symm) (Nat.le_of_eq hspk.symm)
    (Nat.le_of_eq hssk.symm) (Nat.le_of_eq hrpk.symm) (by omega),
    take_all data _ hdata, take_all rnd 24 hrnd, take_all rpk 32 hrpk,
    take_all ssk 32 hssk, take_all spk 32 hspk, Nat.mod_eq_of_lt hrid,
    Nat.mod_eq_of_lt hnet] at hok
  cases hc : E.crypto_box_afternm (List.replicate 32 0 ++ rid :: data) rnd
      (E.crypto_box_beforenm rpk ssk) with
  | none =>
    rw [hc] at hok
    exact absurd (congrArg Prod.fst (Except.ok.inj hok)).symm hr
  | some c =>
    rw [hc] at hok
    have hres := Except.ok.inj hok
    rw [Prod.mk.injEq] at hres
    obtain ⟨hr1, hp⟩ := hres
    have hcl : c.length = length + 33 := by
      rw [E.afternm_length _ _ _ _ hc]
      simp [hdata]
    have hc16 : (c.drop 16).length = length + 17 := by
      rw [List.length_drop, hcl]
      omega
    obtain ⟨s1, s2, s3, s4⟩ := packet_segments E.NET_PACKET_CRYPTO rpk spk rnd
      (c.drop 16) (packet.drop (length + 106)) (length + 17) hrpk hspk hrnd hc16
    rw [← hp, s1, s2, s3, s4]
    refine ⟨hr1.symm, rfl, rfl, rfl, rfl, hc16, ?_⟩
    rw [encrypt_data_eq E rpk ssk rnd (rid :: data) _ (length + 1) (by omega) (by omega)
      (by simp [hdata]) (Nat.le_of_eq hrpk.symm) (Nat.le_of_eq hssk.symm)
      (Nat.le_of_eq hrnd.symm), take_all rnd 24 hrnd, take_all rpk 32 hrpk,
      take_all ssk 32 hssk, take_all (rid :: data) _ (by simp [hdata]), hc]
    simp only []
    have hi : ((length + 1 : Nat) : Int) + 16 = (length : Int) + 17 := by
      push_cast
      ring
    rw [if_neg (by simp), drop_all (List.replicate (length + 17) 0) (length + 1 + 16) (by simp),
      List.append_nil, hi]

set_option maxRecDepth 100000 in
theorem create_request_layout_witness :
    (109 : Int) = ((3 : Nat) : Int) + 106 ∧
      ((32 :: List.replicate 32 3 ++ List.replicate 32 1 ++ List.replicate 24 4
        ++ List.replicate 16 0 ++ [77, 5, 6, 7] ++ List.replicate 915 0).drop 1).take 32
        = List.replicate 32 3 :=
  (fun h => ⟨h.1, h.2.2.1⟩)
    (create_request_layout identity_box_env (List.replicate 24 4) (List.replicate 32 1)
      (List.replicate 32 2) (List.replicate 1024 0) (List.replicate 32 3) [5, 6, 7]
      (32 :: List.replicate 32 3 ++ List.replicate 32 1 ++ List.replicate 24 4
        ++ List.replicate 16 0 ++ [77, 5, 6, 7] ++ List.replicate 915 0)
      3 77 109 (by decide) (by decide) (by decide) (by decide) (by decide)
      (by decide) (by decide) (by decide) (by decide) (List.length_replicate 1024 0)
      (by rfl) (by decide))

/-- C14. When `handle_request` rejects a packet because its length is at most 105 or
above `MAX_CRYPTO_REQUEST_SIZE`, or because bytes 1..32 differ from `self_public_key`,
it returns -1 with the three output buffers as they were, and the outcome is the same
whatever the cryptographic primitives are: none of them takes part. -/
theorem handle_request_validation (E E' : Env) (spk ssk pk data rid packet : Bytes)
    (length : Nat) (hpl : length ≤ packet.length) (hspk : spk.length = 32)
    (hE : E'.MAX_CRYPTO_REQUEST_SIZE = E.MAX_CRYPTO_REQUEST_SIZE)
    (hbad : length ≤ 105 ∨ E.MAX_CRYPTO_REQUEST_SIZE < length ∨
      (packet.drop 1).take 32 ≠ spk) :
    handle_request E spk ssk pk data rid packet length = .ok (-1, ⟨pk, data, rid⟩) ∧
      handle_request E' spk ssk pk data rid packet length = .ok (-1, ⟨pk, data, rid⟩) := by
  have key : ∀ F : Env, F.MAX_CRYPTO_REQUEST_SIZE = E.MAX_CRYPTO_REQUEST_SIZE →
      handle_request F spk ssk pk data rid packet length = .ok (-1, ⟨pk, data, rid⟩) := by
    intro F hF
    by_cases hlen : length ≤ 105 ∨ F.MAX_CRYPTO_REQUEST_SIZE < length
    · exact handle_request_reject_length F spk ssk pk data rid packet length hlen
    · have hd : (packet.drop 1).take 32 ≠ spk.take 32 := by
        rw [take_all spk 32 hspk]
        rcases hbad with h | h | h
        · omega
        · omega
        · exact h
      exact handle_request_reject_recipient F spk ssk pk data rid packet length (by omega)
        (by omega) hpl (Nat.le_of_eq hspk.symm) hd
  exact ⟨key E rfl, key E' hE⟩

theorem handle_request_validation_witness :
    handle_request identity_box_env (List.replicate 32 1) (List.replicate 32 2)
        (List.replicate 32 0) (List.replicate 8 0) [0] (List.replicate 110 9) 110
        = .ok (-1, ⟨List.replicate 32 0, List.replicate 8 0, [0]⟩) ∧
      handle_request identity_box_env (List.replicate 32 1) (List.replicate 32 2)
        (List.replicate 32 0) (List.replicate 8 0) [0] (List.replicate 110 9) 110
        = .ok (-1, ⟨List.replicate 32 0, List.replicate 8 0, [0]⟩) :=
  handle_request_validation identity_box_env identity_box_env (List.replicate 32 1)
    (List.replicate 32 2) (List.replicate 32 0) (List.replicate 8 0) [0]
    (List.replicate 110 9) 110 (by decide) (by decide) rfl (Or.inr (Or.inr (by decide)))

/-- C15. For every 32-byte public key, `public_key_valid` returns 0 exactly when the top
bit of byte 31 is set, that is when byte 31 is at least 128, and 1 otherwise; the result
depends on no other byte of the key. -/
theorem public_key_valid_spec (pk : Bytes) (h : IsKey pk) :
    (public_key_valid pk = 0 ↔ 128 ≤ pk.getD 31 0) ∧
      (public_key_valid pk = 1 ↔ pk.getD 31 0 < 128) ∧
      (128 ≤ pk.getD 31 0 ↔ (pk.getD 31 0).testBit 7 = true) ∧
      (∀ pk', IsKey pk' → pk'.getD 31 0 = pk.getD 31 0 →
        public_key_valid pk' = public_key_valid pk) := by
  have hb := getD_lt_of_isBytes pk h.2 31
  refine ⟨?_, ?_, ?_, ?_⟩
  · rw [public_key_valid]
    split <;> simp_all
  · rw [public_key_valid]
    split <;> simp_all
  · rw [Nat.testBit, Nat.shiftRight_eq_div_pow]
    have h1 : pk.getD 31 0 / 2 ^ 7 < 2 := by omega
    have h2 : 1 &&& pk.getD 31 0 / 2 ^ 7 = pk.getD 31 0 / 2 ^ 7 % 2 :=
      Nat.one_and_eq_mod_two _
    rw [h2]
    simp only [bne_iff_ne, ne_eq]
    omega
  · intro pk' _ he
    rw [public_key_valid, public_key_valid, he]

theorem public_key_valid_spec_witness :
    (public_key_valid (List.replicate 31 5 ++ [200]) = 0
        ↔ 128 ≤ (List.replicate 31 5 ++ [200]).getD 31 0) ∧
      (public_key_valid (List.replicate 31 5 ++ [200]) = 1
        ↔ (List.replicate 31 5 ++ [200]).getD 31 0 < 128) :=
  ⟨(public_key_valid_spec (List.replicate 31 5 ++ [200]) (by decide)).1,
    (public_key_valid_spec (List.replicate 31 5 ++ [200]) (by decide)).2.1⟩

/-- C16. For every 32-byte key `k`, `public_key_cmp k k` returns 0; changing any single
byte of `k` makes it return -1; for 32-byte keys it returns 0 if and only if all 32
bytes agree, and -1 otherwise. -/
theorem public_key_cmp_spec (k k' : Bytes) (hk : IsKey k) (hk' : IsKey k') :
    public_key_cmp k k = 0 ∧
      (∀ i b, i < 32 → b < 256 → b ≠ k.getD i 0 → public_key_cmp k (k.set i b) = -1) ∧
      (public_key_cmp k k' = 0 ↔ k = k') ∧
      (k ≠ k' → public_key_cmp k k' = -1) := by
  have hgen : ∀ y : Bytes, IsKey y → public_key_cmp k y = if k = y then 0 else -1 := by
    intro y hy
    rw [public_key_cmp, crypto_verify_32_eq k y hk.2 hy.2]
    by_cases h : k = y
    · rw [if_pos ((keys_eq_iff k y hk.1 hy.1).mpr h), if_pos h]
    · rw [if_neg (fun hh => h ((keys_eq_iff k y hk.1 hy.1).mp hh)), if_neg h]
  refine ⟨?_, ?_, ?_, ?_⟩
  · rw [hgen k hk, if_pos rfl]
  · intro i b hi hb hne
    have hset : IsKey (k.set i b) := by
      refine ⟨by rw [List.length_set]; exact hk.1, ?_⟩
      intro x hx
      rcases List.mem_or_eq_of_mem_set hx with h | h
      · exact hk.2 x h
      · rw [h]; exact hb
    have hil : i < k.length := by rw [hk.1]; exact hi
    have hdiff : k ≠ k.set i b := by
      intro he
      have := congrArg (fun l => l.getD i 0) he
      simp only [List.getD_eq_getElem?_getD, List.getElem?_set_self hil] at this
      exact hne (by simpa using this.symm)
    rw [hgen _ hset, if_neg hdiff]
  · rw [hgen k' hk']
    split <;> simp_all
  · intro hne
    rw [hgen k' hk', if_neg hne]

theorem public_key_cmp_spec_witness :
    public_key_cmp (List.replicate 32 7) (List.replicate 32 7) = 0 ∧
      (public_key_cmp (List.replicate 32 7) (List.replicate 31 7 ++ [8]) = 0
        ↔ List.replicate 32 7 = List.replicate 31 7 ++ [8]) :=
  ⟨(public_key_cmp_spec (List.replicate 32 7) (List.replicate 31 7 ++ [8]) (by decide)
      (by decide)).1,
    (public_key_cmp_spec (List.replicate 32 7) (List.replicate 31 7 ++ [8]) (by decide)
      (by decide)).2.2.1⟩

/-- C18. For every 24-byte nonce, `increment_nonce` and `increment_nonce_number` with 1
produce the same nonce, on either byte order of the host. -/
theorem increment_nonce_eq_number_one (le : Bool) (n : Bytes) (h : IsNonce n) :
    increment_nonce n = increment_nonce_number le n 1 := by
  rw [increment_nonce_eq n h, increment_nonce_number_eq le n 1 h (by norm_num)]

theorem increment_nonce_eq_number_one_witness :
    increment_nonce (List.replicate 20 7 ++ [255, 255, 255, 255])
      = increment_nonce_number true (List.replicate 20 7 ++ [255, 255, 255, 255]) 1 :=
  increment_nonce_eq_number_one true (List.replicate 20 7 ++ [255, 255, 255, 255]) (by decide)

/-- C19. Once the length check of `handle_request` has passed, the decryption of the
payload returns -1 when `crypto_box_open_afternm` refuses the payload and otherwise
`L - 105`, the number of bytes of the opened message after its 32 padding bytes, which
is between 1 and `MAX_CRYPTO_REQUEST_SIZE`, never 0; the scratch buffer keeps its size.
Whenever `handle_request` succeeds on a packet of length `L` it returns `L - 106`,
between 0 and `MAX_CRYPTO_REQUEST_SIZE - 106`, the primitive has accepted the payload,
the request id output is byte 32 of the message the primitive returned (the first
decrypted byte), the data output is the `L - 106` bytes that follow it, and the sender
key output is bytes 33..64 of the packet. -/
theorem handle_request_success (E : Env) (spk ssk pk data rid packet : Bytes) (length : Nat)
    (r : Int) (out : RequestOut) (hl16 : length < 2 ^ 16) (hpl : length ≤ packet.length)
    (hspk : spk.length = 32) (hssk : ssk.length = 32) (hpk : 32 ≤ pk.length) :
    (105 < length → length ≤ E.MAX_CRYPTO_REQUEST_SIZE →
      (E.crypto_box_open_afternm (List.replicate 16 0 ++ (packet.drop 89).take (length - 89))
          ((packet.drop 65).take 24) (E.crypto_box_beforenm ((packet.drop 33).take 32) ssk)
          = none →
        decrypt_payload E ssk packet length
          = .ok (-1, stack_array E E.MAX_CRYPTO_REQUEST_SIZE)) ∧
      (∀ m, E.crypto_box_open_afternm
          (List.replicate 16 0 ++ (packet.drop 89).take (length - 89))
          ((packet.drop 65).take 24) (E.crypto_box_beforenm ((packet.drop 33).take 32) ssk)
          = some m →
        decrypt_payload E ssk packet length
          = .ok ((length : Int) - 105,
              m.drop 32 ++ (stack_array E E.MAX_CRYPTO_REQUEST_SIZE).drop (length - 105)) ∧
        (m.drop 32).length = length - 105 ∧ 1 ≤ length - 105 ∧
        length - 105 ≤ E.MAX_CRYPTO_REQUEST_SIZE ∧
        (m.drop 32 ++ (stack_array E E.MAX_CRYPTO_REQUEST_SIZE).drop (length - 105)).length
          = E.MAX_CRYPTO_REQUEST_SIZE) ∧
      (∀ r1 t, decrypt_payload E ssk packet length = .ok (r1, t) →
        (r1 = -1 ∨ (1 ≤ r1 ∧ r1 ≤ (E.MAX_CRYPTO_REQUEST_SIZE : Int))) ∧
          t.length = E.MAX_CRYPTO_REQUEST_SIZE)) ∧
    (handle_request E spk ssk pk data rid packet length = .ok (r, out) → r ≠ -1 →
      r = (length : Int) - 106 ∧ 0 ≤ r ∧ r ≤ (E.MAX_CRYPTO_REQUEST_SIZE : Int) - 106 ∧
        Except.map Prod.fst (decrypt_payload E ssk packet length)
          = .ok ((length : Int) - 105) ∧
        (∀ r1 t, decrypt_payload E ssk packet length = .ok (r1, t) →
          out.request_id = (t.getD 0 0 % 256) :: rid.drop 1 ∧
            out.data = (t.drop 1).take (length - 106) ++ data.drop (length - 106)) ∧
        (E.crypto_box_open_afternm
          (List.replicate 16 0 ++ (packet.drop 89).take (length - 89))
          ((packet.drop 65).take 24)
          (E.crypto_box_beforenm ((packet.drop 33).take 32) ssk)).isSome = true ∧
        ∀ m, E.crypto_box_open_afternm
            (List.replicate 16 0 ++ (packet.drop 89).take (length - 89))
            ((packet.drop 65).take 24) (E.crypto_box_beforenm ((packet.drop 33).take 32) ssk)
            = some m →
          out.request_id = (m.getD 32 0 % 256) :: rid.drop 1 ∧
            out.data = m.drop 33 ++ data.drop (length - 106) ∧
            (m.drop 33).length = length - 106 ∧
            out.public_key = (packet.drop 33).take 32 ++ pk.drop 32) := by
  have hmlen : ∀ m, E.crypto_box_open_afternm
      (List.replicate 16 0 ++ (packet.drop 89).take (length - 89))
      ((packet.drop 65).take 24) (E.crypto_box_beforenm ((packet.drop 33).take 32) ssk)
      = some m → 105 < length → m.length = length - 73 := by
    intro m ho h1
    rw [E.open_afternm_length _ _ _ _ ho]
    simp
    omega
  constructor
  · intro h1 h2
    have hdp := decrypt_payload_eq E ssk packet length h1 h2 hl16 hpl (Nat.le_of_eq hssk.symm)
    rw [take_all ssk 32 hssk] at hdp
    have hm : ∀ m, E.crypto_box_open_afternm
        (List.replicate 16 0 ++ (packet.drop 89).take (length - 89))
        ((packet.drop 65).take 24) (E.crypto_box_beforenm ((packet.drop 33).take 32) ssk)
        = some m →
        decrypt_payload E ssk packet length
          = .ok ((length : Int) - 105,
              m.drop 32 ++ (stack_array E E.MAX_CRYPTO_REQUEST_SIZE).drop (length - 105)) ∧
        (m.drop 32).length = length - 105 ∧ 1 ≤ length - 105 ∧
        length - 105 ≤ E.MAX_CRYPTO_REQUEST_SIZE ∧
        (m.drop 32 ++ (stack_array E E.MAX_CRYPTO_REQUEST_SIZE).drop (length - 105)).length
          = E.MAX_CRYPTO_REQUEST_SIZE := by
      intro m ho
      have hml := hmlen m ho h1
      refine ⟨by rw [hdp, ho], by rw [List.length_drop, hml]; omega, by omega, by omega, ?_⟩
      rw [List.length_append, List.length_drop, List.length_drop, hml, stack_array_length]
      omega
    refine ⟨fun ho => by rw [hdp, ho], hm, ?_⟩
    intro r1 t hd
    cases ho : E.crypto_box_open_afternm
        (List.replicate 16 0 ++ (packet.drop 89).take (length - 89))
        ((packet.drop 65).take 24)
        (E.crypto_box_beforenm ((packet.drop 33).take 32) ssk) with
    | none =>
      rw [hdp, ho] at hd
      have hd1 := Except.ok.inj hd
      rw [Prod.mk.injEq] at hd1
      exact ⟨Or.inl hd1.1.symm, by rw [← hd1.2, stack_array_length]⟩
    | some m =>
      obtain ⟨e1, _, _, _, e5⟩ := hm m ho
      rw [e1] at hd
      have hd1 := Except.ok.inj hd
      rw [Prod.mk.injEq] at hd1
      exact ⟨Or.inr (by omega), by rw [← hd1.2, e5]⟩
  · intro hok hr
    have h1 : 105 < length := by
      by_contra hc
      rw [handle_request_reject_length E spk ssk pk data rid packet length
        (Or.inl (by omega))] at hok
      exact hr (congrArg Prod.fst (Except.ok.inj hok)).symm
    have h2 : length ≤ E.MAX_CRYPTO_REQUEST_SIZE := by
      by_contra hc
      rw [handle_request_reject_length E spk ssk pk data rid packet length
        (Or.inr (by omega))] at hok
      exact hr (congrArg Prod.fst (Except.ok.inj hok)).symm
    rw [handle_request_checked E spk ssk pk data rid packet length h1 h2 hl16 hpl
      (Nat.le_of_eq hspk.symm) (Nat.le_of_eq hssk.symm) hpk, take_all ssk 32 hssk] at hok
    rw [decrypt_payload_eq E ssk packet length h1 h2 hl16 hpl (Nat.le_of_eq hssk.symm),
      take_all ssk 32 hssk]
    split at hok
    · exact absurd (congrArg Prod.fst (Except.ok.inj hok)).symm hr
    · cases ho : E.crypto_box_open_afternm
          (List.replicate 16 0 ++ (packet.drop 89).take (length - 89))
          ((packet.drop 65).take 24)
          (E.crypto_box_beforenm ((packet.drop 33).take 32) ssk) with
      | none =>
        rw [ho] at hok
        exact absurd (congrArg Prod.fst (Except.ok.inj hok)).symm hr
      | some m =>
        rw [ho] at hok
        simp only [] at hok
        have hml := hmlen m ho h1
        cases hs : store rid 0 (m.getD 32 0) with
        | error e =>
          rw [hs] at hok
          exact Except.noConfusion hok
        | ok rid1 =>
          rw [hs, bind_ok] at hok
          cases hm : memcpy data 0
              (m.drop 32 ++ (stack_array E E.MAX_CRYPTO_REQUEST_SIZE).drop (length - 105)) 1
              (length - 106) with
          | error e =>
            rw [hm] at hok
            exact Except.noConfusion hok
          | ok data1 =>
            rw [hm, bind_ok] at hok
            have hres := Except.ok.inj hok
            rw [Prod.mk.injEq] at hres
            obtain ⟨hr1, hout⟩ := hres
            obtain ⟨hrl, hrid1⟩ := store_inv _ _ _ _ hs
            obtain ⟨_, _, hdata1⟩ := memcpy_inv _ _ _ _ _ _ hm
            have hridv : rid1 = (m.getD 32 0 % 256) :: rid.drop 1 := by
              rw [hrid1]
              cases rid with
              | nil => exact absurd hrl (by simp)
              | cons a l => rfl
            have h33 : (m.drop 33).length = length - 106 := by
              rw [List.length_drop, hml]
              omega
            have hseg : ((m.drop 32 ++ (stack_array E E.MAX_CRYPTO_REQUEST_SIZE).drop
                (length - 105)).drop 1).take (length - 106) = m.drop 33 := by
              rw [List.drop_append_of_le_length (by rw [List.length_drop, hml]; omega),
                List.drop_drop]
              exact List.take_left' h33
            refine ⟨hr1.symm, by omega, by omega, rfl, ?_, rfl, ?_⟩
            · intro r1 t ht
              have ht1 := Except.ok.inj ht
              rw [Prod.mk.injEq] at ht1
              rw [← hout, ← ht1.2]
              constructor
              · show rid1 = _
                rw [hridv, getD_zero_drop_append m _ 32 (by omega)]
              · show data1 = _
                rw [hdata1, List.take_zero, List.nil_append, Nat.zero_add]
            · intro m1 ho1
              have hmm : m1 = m := Option.some.inj ho1.symm
              subst hmm
              rw [← hout]
              refine ⟨hridv, ?_, h33, rfl⟩
              show data1 = _
              rw [hdata1, hseg, List.take_zero, List.nil_append, Nat.zero_add]


set_option maxRecDepth 100000 in
theorem handle_request_success_witness :
    (3 : Int) = ((109 : Nat) : Int) - 106 ∧
      Except.map Prod.fst (decrypt_payload identity_box_env (List.replicate 32 8)
        (32 :: List.replicate 32 3 ++ List.replicate 32 1 ++ List.replicate 24 4
          ++ List.replicate 16 0 ++ [77, 5, 6, 7]) 109) = .ok (((109 : Nat) : Int) - 105) ∧
      RequestOut.request_id ⟨List.replicate 32 1, [5, 6, 7], [77]⟩
        = ((List.replicate 32 0 ++ [77, 5, 6, 7]).getD 32 0 % 256) :: ([0] : Bytes).drop 1 ∧
      RequestOut.data ⟨List.replicate 32 1, [5, 6, 7], [77]⟩
        = (List.replicate 32 0 ++ [77, 5, 6, 7]).drop 33
          ++ (List.replicate 3 0).drop (109 - 106) :=
  (fun h => ⟨h.1, h.2.2.2.1,
      (h.2.2.2.2.2.2 (List.replicate 32 0 ++ [77, 5, 6, 7]) (by decide)).1,
      (h.2.2.2.2.2.2 (List.replicate 32 0 ++ [77, 5, 6, 7]) (by decide)).2.1⟩)
    ((handle_request_success identity_box_env (List.replicate 32 3) (List.replicate 32 8)
      (List.replicate 32 0) (List.replicate 3 0) [0]
      (32 :: List.replicate 32 3 ++ List.replicate 32 1 ++ List.replicate 24 4
        ++ List.replicate 16 0 ++ [77, 5, 6, 7]) 109 3
      ⟨List.replicate 32 1, [5, 6, 7], [77]⟩ (by decide) (by decide) (by decide) (by decide)
      (by decide)).2 (by rfl) (by decide))

/-- C20. When `handle_request` passes the length and recipient checks but decryption of
the payload fails, it returns -1 with the data and request-id buffers as they were, and
with the sender public-key buffer overwritten by bytes 33..64 of the packet. -/
theorem handle_request_decrypt_fails (E : Env) (spk ssk pk data rid packet : Bytes)
    (length : Nat) (hl16 : length < 2 ^ 16) (hpl : length ≤ packet.length)
    (hspk : spk.length = 32) (hssk : ssk.length = 32) (hpk : pk.length = 32)
    (h1 : 105 < length) (h2 : length ≤ E.MAX_CRYPTO_REQUEST_SIZE)
    (hrecv : (packet.drop 1).take 32 = spk)
    (hfail : payload_decryption_fails E ssk packet length = true) :
    handle_request E spk ssk pk data rid packet length
      = .ok (-1, ⟨(packet.drop 33).take 32, data, rid⟩) := by
  rw [payload_decryption_fails_iff E ssk packet length h1 h2 hl16 hpl
    (Nat.le_of_eq hssk.symm)] at hfail
  rw [handle_request_checked E spk ssk pk data rid packet length h1 h2 hl16 hpl
    (Nat.le_of_eq hspk.symm) (Nat.le_of_eq hssk.symm) (Nat.le_of_eq hpk.symm),
    take_all spk 32 hspk, if_neg (by simpa using hrecv), hfail]
  simp only []
  rw [drop_all pk 32 hpk, List.append_nil]

theorem handle_request_decrypt_fails_witness :
    handle_request identity_box_env (List.replicate 32 1) (List.replicate 32 2)
        (List.replicate 32 0) (List.replicate 8 0) [0]
        (32 :: List.replicate 32 1 ++ List.replicate 32 3 ++ List.replicate 24 4
          ++ List.replicate 16 9 ++ [77, 5]) 107
      = .ok (-1, ⟨((32 :: List.replicate 32 1 ++ List.replicate 32 3 ++ List.replicate 24 4
          ++ List.replicate 16 9 ++ [77, 5]).drop 33).take 32, List.replicate 8 0, [0]⟩) :=
  handle_request_decrypt_fails identity_box_env (List.replicate 32 1) (List.replicate 32 2)
    (List.replicate 32 0) (List.replicate 8 0) [0]
    (32 :: List.replicate 32 1 ++ List.replicate 32 3 ++ List.replicate 24 4
      ++ List.replicate 16 9 ++ [77, 5]) 107 (by decide) (by decide) (by decide) (by decide)
    (by decide) (by decide) (by decide) (by decide) (by decide)

/-- C21. For every 24-byte nonce and all 32-bit `a` and `b`, with no restriction on
`a + b`, `increment_nonce_number` with `a` then `b` gives the same nonce as with `b` then
`a`, on either byte order of the host; both are the big-endian encoding of
`(N + a + b) mod 2^192`. -/
theorem increment_nonce_number_comm (le : Bool) (n : Bytes) (a b : Nat) (h : IsNonce n)
    (ha : a < 2 ^ 32) (hb : b < 2 ^ 32) :
    increment_nonce_number le (increment_nonce_number le n a) b
        = increment_nonce_number le (increment_nonce_number le n b) a ∧
      increment_nonce_number le (increment_nonce_number le n a) b
        = be_encode 24 ((be_value n + a + b) % 2 ^ 192) ∧
      increment_nonce_number le (increment_nonce_number le n b) a
        = be_encode 24 ((be_value n + a + b) % 2 ^ 192) := by
  have key : ∀ x y : Nat, x < 2 ^ 32 → y < 2 ^ 32 →
      increment_nonce_number le (increment_nonce_number le n x) y
        = be_encode 24 ((be_value n + x + y) % 2 ^ 192) := by
    intro x y hx hy
    rw [increment_nonce_number_eq le n x h hx,
      increment_nonce_number_eq le _ y (isNonce_be_encode _) hy, be_value_encode]
    congr 1
    norm_num
  have hba : be_value n + b + a = be_value n + a + b := by omega
  refine ⟨?_, key a b ha hb, ?_⟩
  · rw [key a b ha hb, key b a hb ha, hba]
  · rw [key b a hb ha, hba]

theorem increment_nonce_number_comm_witness :
    increment_nonce_number true
        (increment_nonce_number true (List.replicate 20 255 ++ [0, 0, 0, 9]) 4294967295)
        4294967290
      = increment_nonce_number true
        (increment_nonce_number true (List.replicate 20 255 ++ [0, 0, 0, 9]) 4294967290)
        4294967295 :=
  (increment_nonce_number_comm true (List.replicate 20 255 ++ [0, 0, 0, 9]) 4294967295
    4294967290 (by decide) (by decide) (by decide)).1

end Toxcore
